import Mathlib

/-!
Verification development for the gortsplib repository fragment: the RTP payload
codec (H.264 packetization: fragmentation and aggregation) and the example RTSP
server handlers (publisher displacement, lock discipline).

The payload-codec implementation itself is not part of the given sources (only
its test vectors, in the rtph264 test file, and callers are); the codec
definitions below are therefore modelled from the specification (sections 3,
4.1, 7, 9 of the design document), with every constant pinned by the test
vectors: a fragmentation packet carries a 2-byte header (indicator byte
nri*32+28, then start/end bits and the original unit type), an aggregation
packet carries the header byte 24 followed by 2-byte big-endian length fields,
and each non-final fragment slice has PayloadMaxSize - 2 payload bytes.

Bytes are modelled as natural numbers; the encoder only ever constructs header
bytes below 256, and length fields are reduced modulo 256 exactly as the
byte-level code does.
-/

/-- Error taxonomy of the payload codec, from section 7 of the specification:
InvalidData, NonStartingPacketAndNoPrevious, MorePacketsNeeded, plus the
discontinuity error raised when a packet is missing mid-fragment. -/
inductive CodecError where
  | invalidData
  | nonStartingPacketAndNoPrevious
  | morePacketsNeeded
  | discontinuity
deriving DecidableEq, Repr

/-- The RTP packet fields used by the payload codec (rtp.Packet in the sources):
marker bit, payload type, 16-bit sequence number, SSRC and the payload bytes. -/
structure RtpPacket where
  marker : Bool
  payloadType : Nat
  sequenceNumber : Nat
  ssrc : Nat
  payload : List Nat
deriving DecidableEq, Repr

/-- Initialized encoder state that is fixed for the stream's lifetime:
payload type, SSRC and the maximum payload size (the sequence number, which
mutates across calls, is threaded separately). -/
structure Encoder where
  payloadType : Nat
  ssrc : Nat
  payloadMaxSize : Nat
deriving DecidableEq, Repr

/-- Encoder configuration before Init: SSRC and initial sequence number are
optional (chosen at random when unset), PayloadMaxSize 0 means unset. -/
structure EncoderConfig where
  payloadType : Nat
  ssrc : Option Nat
  initialSequenceNumber : Option Nat
  payloadMaxSize : Nat
deriving DecidableEq, Repr

/-- Modelled from the spec: Encoder.Init (absent from the given sources; its
behavior is pinned by TestEncode and TestEncodeRandomInitialState).  When SSRC
or the initial sequence number is unset it is chosen at random at
initialization; randomness is injected as the two explicit arguments.  Returns
the initialized encoder together with the starting sequence number. -/
def EncoderConfig.doInit (cfg : EncoderConfig) (randSsrc randSeq : Nat) : Encoder × Nat :=
  (⟨cfg.payloadType, cfg.ssrc.getD randSsrc,
    if cfg.payloadMaxSize = 0 then 1460 else cfg.payloadMaxSize⟩,
   (cfg.initialSequenceNumber.getD randSeq) % 65536)

/-- Fuel-driven worker for chunking a byte list into slices of length le
(the final slice holds the remainder).  The fuel is always instantiated with
the list length, which suffices whenever 1 ≤ le. -/
def chunksGo (le : Nat) : Nat → List Nat → List (List Nat)
  | _, [] => []
  | 0, _ :: _ => []
  | fuel + 1, x :: xs =>
    if (x :: xs).length ≤ le then [x :: xs]
    else (x :: xs).take le :: chunksGo le fuel ((x :: xs).drop le)

/-- Split a byte list into consecutive slices of length le; the final slice
carries the remainder (never empty when the input is nonempty and 1 ≤ le). -/
def chunks (le : Nat) (xs : List Nat) : List (List Nat) := chunksGo le xs.length xs

/-- Modelled from the spec: the middle and final fragmentation packets of one
fragmented unit (one packet per remaining slice).  Every packet payload is the
indicator byte, then the fragment header byte (end bit 64 set only on the last
slice, low bits the original unit type), then the slice.  Sequence numbers
advance by one per packet modulo 2^16; only the final packet may carry the
access unit marker. -/
def fuMids (pt sc ind typ : Nat) (marker : Bool) : Nat → List (List Nat) → List RtpPacket
  | _, [] => []
  | seq, [c] => [⟨marker, pt, seq % 65536, sc, ind :: (64 + typ) :: c⟩]
  | seq, c :: c2 :: cs =>
    ⟨false, pt, seq % 65536, sc, ind :: typ :: c⟩ ::
      fuMids pt sc ind typ marker (seq + 1) (c2 :: cs)

/-- Modelled from the spec: fragmentation of one oversized unit (pinned by the
fragmented test vectors: indicator nri*32+28 preserving the unit header's
priority bits, start bit 128 on the first fragment only, end bit 64 on the last
only, each slice of length PayloadMaxSize - 2 except the final one).  The
unit's first (header) byte is stripped and recovered from the two-byte
fragment headers by the decoder. -/
def fuPackets (e : Encoder) (seq : Nat) (nalu : List Nat) (marker : Bool) : List RtpPacket :=
  let h := nalu.headD 0
  let ind := h / 32 % 4 * 32 + 28
  let typ := h % 32
  match chunks (e.payloadMaxSize - 2) nalu.tail with
  | [] => []
  | [c] => [⟨marker, e.payloadType, seq % 65536, e.ssrc, ind :: (128 + 64 + typ) :: c⟩]
  | c :: c2 :: cs =>
    ⟨false, e.payloadType, seq % 65536, e.ssrc, ind :: (128 + typ) :: c⟩ ::
      fuMids e.payloadType e.ssrc ind typ marker (seq + 1) (c2 :: cs)

/-- Modelled from the spec: payload of an aggregation packet (pinned by the
aggregated test vectors): header byte 24 followed by, for every unit, a 2-byte
big-endian length field and the unit bytes. -/
def stapPayload (batch : List (List Nat)) : List Nat :=
  24 :: (batch.map fun n => n.length / 256 % 256 :: n.length % 256 :: n).flatten

/-- Modelled from the spec: emit one batch of units as packets at the given
sequence number.  A lone unit that fits within PayloadMaxSize travels as a
plain single packet, a lone oversized unit is fragmented, and a batch of two
or more units becomes one aggregation packet.  Returns the packets and the
advanced (wrapped) sequence number. -/
def writeBatch (e : Encoder) (seq : Nat) (batch : List (List Nat)) (marker : Bool) :
    List RtpPacket × Nat :=
  match batch with
  | [n] =>
    if n.length ≤ e.payloadMaxSize then
      ([⟨marker, e.payloadType, seq % 65536, e.ssrc, n⟩], (seq + 1) % 65536)
    else
      let ps := fuPackets e seq n marker
      (ps, (seq + ps.length) % 65536)
  | _ =>
    ([⟨marker, e.payloadType, seq % 65536, e.ssrc, stapPayload batch⟩], (seq + 1) % 65536)

/-- Size an aggregation packet would have after adding one more unit to the
batch: 1 header byte plus, per unit, a 2-byte length field and the unit. -/
def lenAggregated (batch : List (List Nat)) (n : List Nat) : Nat :=
  1 + (batch.map fun b => 2 + b.length).sum + (2 + n.length)

/-- Modelled from the spec: the batching loop of Encoder.Encode.  Each unit
joins the current batch while the aggregate size stays within PayloadMaxSize;
otherwise the current batch is flushed and the unit starts a new batch.  The
accumulator is the current (always nonempty) batch. -/
def makeBatchesGo (P : Nat) (batch : List (List Nat)) :
    List (List Nat) → List (List (List Nat))
  | [] => [batch]
  | n :: rest =>
    if lenAggregated batch n ≤ P then makeBatchesGo P (batch ++ [n]) rest
    else batch :: makeBatchesGo P [n] rest

/-- Partition the access unit's units into batches in encoding order. -/
def makeBatches (P : Nat) : List (List Nat) → List (List (List Nat))
  | [] => []
  | n :: rest => makeBatchesGo P [n] rest

/-- Modelled from the spec: emit all batches in order; the marker bit is set
only within the final batch of the access unit. -/
def encodeBatches (e : Encoder) (seq : Nat) : List (List (List Nat)) → List RtpPacket × Nat
  | [] => ([], seq)
  | [b] => writeBatch e seq b true
  | b :: b2 :: rest =>
    let r := writeBatch e seq b false
    let r2 := encodeBatches e r.2 (b2 :: rest)
    (r.1 ++ r2.1, r2.2)

/-- A unit is well formed for the codec when it is nonempty, its forbidden bit
is clear (header byte below 128) and its type is not one of the types reserved
for the packetization itself (24 = aggregation, 28 = fragmentation). -/
def validNalu (n : List Nat) : Bool :=
  decide (n ≠ []) && decide (n.headD 0 < 128) &&
    decide (n.headD 0 % 32 ≠ 24) && decide (n.headD 0 % 32 ≠ 28)

/-- Modelled from the spec: Encoder.Encode.  Fails with InvalidData when the
access unit is empty or malformed for the codec; otherwise partitions the
units into batches and emits them, threading the sequence number. -/
def Encoder.encode (e : Encoder) (seq : Nat) (nalus : List (List Nat)) :
    Except CodecError (List RtpPacket × Nat) :=
  if nalus ≠ [] ∧ nalus.all validNalu = true then
    .ok (encodeBatches e seq (makeBatches e.payloadMaxSize nalus))
  else .error .invalidData

/-- Decoder state, from the specification's DecoderState: the
fragmentation-in-progress buffer (present exactly while mid-fragment, holding
the reconstructed unit so far) and the sequence number the next fragment must
carry. -/
structure Decoder where
  fragBuffer : Option (List Nat)
  fragNextSeq : Nat
deriving DecidableEq, Repr

/-- Split an aggregation payload body by its embedded 2-byte big-endian length
fields; fails (None) when a length field overruns the remaining bytes. -/
def parseStap : List Nat → Option (List (List Nat))
  | [] => some []
  | [_] => none
  | hi :: lo :: rest =>
    let len := hi * 256 + lo
    if rest.length < len then none
    else
      match parseStap (rest.drop len) with
      | some units => some (rest.take len :: units)
      | none => none
termination_by l => l.length
decreasing_by simp only [List.length_drop, List.length_cons]; omega

/-- Modelled from the spec: Decoder.Decode.  Inspects the payload's type
indicator: an aggregation packet is split by its length fields and all units
are returned together; a fragment-start begins buffering (discarding any
partial buffer, so a fresh start is always honoured); a fragment
continuation/end is appended only when the sequence number is contiguous
(otherwise the discontinuity error discards the partial buffer), completing
the unit on the end bit; a continuation with no fragment-start on record fails
with NonStartingPacketAndNoPrevious; any other payload is a plain single unit
returned directly.  MorePacketsNeeded signals an incomplete fragment run. -/
def Decoder.decode (d : Decoder) (pkt : RtpPacket) :
    Except CodecError (List (List Nat)) × Decoder :=
  match pkt.payload with
  | [] => (.error .invalidData, d)
  | b :: rest =>
    if b % 32 = 24 then
      match parseStap rest with
      | some units => (.ok units, ⟨none, 0⟩)
      | none => (.error .invalidData, ⟨none, 0⟩)
    else if b % 32 = 28 then
      match rest with
      | [] => (.error .invalidData, d)
      | fuh :: body =>
        if fuh / 128 = 1 then
          if fuh / 64 % 2 = 1 then (.error .invalidData, ⟨none, 0⟩)
          else
            (.error .morePacketsNeeded,
             ⟨some ((b / 32 % 8 * 32 + fuh % 32) :: body), (pkt.sequenceNumber + 1) % 65536⟩)
        else
          match d.fragBuffer with
          | none => (.error .nonStartingPacketAndNoPrevious, d)
          | some buf =>
            if pkt.sequenceNumber ≠ d.fragNextSeq then
              (.error .discontinuity, ⟨none, 0⟩)
            else if fuh / 64 % 2 = 1 then
              (.ok [buf ++ body], ⟨none, 0⟩)
            else
              (.error .morePacketsNeeded,
               ⟨some (buf ++ body), (pkt.sequenceNumber + 1) % 65536⟩)
    else
      (.ok [b :: rest], ⟨none, 0⟩)

/-- Feed a packet list to the decoder in order, concatenating all completed
units (errors and MorePacketsNeeded signals contribute no units). -/
def decodeAll (d : Decoder) : List RtpPacket → List (List Nat) × Decoder
  | [] => ([], d)
  | p :: ps =>
    let r := d.decode p
    let rest := decodeAll r.2 ps
    ((match r.1 with | .ok us => us | .error _ => []) ++ rest.1, rest.2)

/-- The packets of a successful encode call (empty on failure); evaluation
helper for concrete inputs. -/
def encodedPackets (e : Encoder) (seq : Nat) (nalus : List (List Nat)) : List RtpPacket :=
  match e.encode seq nalus with
  | .ok r => r.1
  | .error _ => []

/-- Run a sequence of Encode calls on one encoder, threading the sequence
number; per section 7 of the specification a failing call emits no packets and
does not advance the counters.  Returns the per-call packet lists. -/
def multiEncode (e : Encoder) (seq : Nat) :
    List (List (List Nat)) → List (List RtpPacket) × Nat
  | [] => ([], seq)
  | au :: aus =>
    match e.encode seq au with
    | .ok r =>
      let rest := multiEncode e r.2 aus
      (r.1 :: rest.1, rest.2)
    | .error _ =>
      let rest := multiEncode e seq aus
      ([] :: rest.1, rest.2)

/-- The packet at position i has sequence number (s + i) mod 2^16: a
contiguous increasing run modulo 2^16 with no gaps or repeats. -/
def seqsFrom : Nat → List RtpPacket → Bool
  | _, [] => true
  | s, p :: ps => decide (p.sequenceNumber = s % 65536) && seqsFrom (s + 1) ps

/-- Exactly one packet carries Marker = true, namely the last one. -/
def lastMarked : List RtpPacket → Bool
  | [] => false
  | [p] => p.marker
  | p :: q :: ps => !p.marker && lastMarked (q :: ps)

/-- A placeholder packet for total head/last extraction in statements. -/
def dummyPkt : RtpPacket := ⟨false, 0, 0, 0, []⟩

/-! ## Example RTSP server handlers

The two example servers (src/unnamed/part_000 and src/examples/server-auth)
share the same handler state: a read/write mutex, the current stream hub and
the current publisher session.  Sessions are identified by numerals.  The
library-side ServerStream.Close and ServerSession.Close are modelled from the
spec: closing a hub disconnects all readers registered on it, closing a
session forcibly disconnects it; both effects are recorded in the
disconnected list, and a closed hub is moved into closedHubs. -/

/-- One published stream hub: its registered reader sessions and whether it
has been closed. -/
structure Hub where
  readers : List Nat
  closed : Bool
deriving DecidableEq, Repr

/-- The serverHandler shared state (stream and publisher), together with the
observable effects of the modelled Close calls. -/
structure HandlerState where
  stream : Option Hub
  publisher : Option Nat
  disconnected : List Nat
  closedHubs : List Hub
deriving DecidableEq, Repr

/-- RTSP response statuses returned by the example handlers. -/
inductive RtspStatus where
  | ok
  | notFound
  | unauthorized
deriving DecidableEq, Repr

/-- Which side of the reader/writer mutex a handler acquires. -/
inductive LockMode where
  | writer
  | reader
deriving DecidableEq, Repr

/-- Shallow embedding of serverHandler.OnAnnounce (identical in
src/unnamed/part_000 lines 81-107 and src/examples/server-auth/main.go lines
101-136, after the credential check): under mutex.Lock, if a stream exists the
stream is closed and the publisher session is closed, then a fresh hub is
created and initialized and the announcing session becomes the publisher;
the response status is OK.  Close effects are modelled from the spec. -/
def onAnnounce (st : HandlerState) (sid : Nat) : HandlerState × RtspStatus :=
  let st1 :=
    match st.stream with
    | some hub =>
      { st with
        disconnected := st.disconnected ++ hub.readers ++ st.publisher.toList,
        closedHubs := st.closedHubs ++ [{ hub with closed := true }] }
    | none => st
  ({ st1 with stream := some ⟨[], false⟩, publisher := some sid }, .ok)

/-- Shallow embedding of serverHandler.OnSessionClose from
src/examples/server-auth/main.go lines 55-67: it acquires only mutex.RLock
(the shared reader side), then, if the closing session is the publisher,
closes the stream and clears it.  The first component records the lock side
held while the body runs. -/
def serverAuthOnSessionClose (st : HandlerState) (sid : Nat) : LockMode × HandlerState :=
  (.reader,
   match st.stream, st.publisher with
   | some hub, some p =>
     if p = sid then
       { st with
         stream := none,
         disconnected := st.disconnected ++ hub.readers,
         closedHubs := st.closedHubs ++ [{ hub with closed := true }] }
     else st
   | _, _ => st)

/-- Shallow embedding of serverHandler.OnSessionClose from
src/unnamed/part_000 lines 44-56: the same body, but under mutex.Lock (the
exclusive writer side). -/
def plainOnSessionClose (st : HandlerState) (sid : Nat) : LockMode × HandlerState :=
  (.writer, (serverAuthOnSessionClose st sid).2)

/-! ## Properties of chunking -/

theorem chunksGo_flatten (le : Nat) (hle : 1 ≤ le) :
    ∀ (fuel : Nat) (xs : List Nat), xs.length ≤ fuel →
      (chunksGo le fuel xs).flatten = xs := by
  intro fuel
  induction fuel with
  | zero =>
    intro xs h
    cases xs with
    | nil => rfl
    | cons x t => simp at h
  | succ n ih =>
    intro xs h
    cases xs with
    | nil => rfl
    | cons x t =>
      simp only [chunksGo, List.length_cons]
      by_cases hc : t.length + 1 ≤ le
      · rw [if_pos hc]
        simp
      · rw [if_neg hc, List.flatten_cons, ih]
        · exact List.take_append_drop le (x :: t)
        · simp only [List.length_drop, List.length_cons]
          simp only [List.length_cons] at h
          omega

theorem chunks_flatten (le : Nat) (hle : 1 ≤ le) (xs : List Nat) :
    (chunks le xs).flatten = xs :=
  chunksGo_flatten le hle xs.length xs le_rfl

theorem chunksGo_length (le : Nat) (hle : 1 ≤ le) :
    ∀ (fuel : Nat) (xs : List Nat), xs.length ≤ fuel →
      (chunksGo le fuel xs).length = (xs.length + le - 1) / le := by
  intro fuel
  induction fuel with
  | zero =>
    intro xs h
    cases xs with
    | nil => simp [chunksGo, Nat.div_eq_of_lt (show le - 1 < le by omega)]
    | cons x t => simp at h
  | succ n ih =>
    intro xs h
    cases xs with
    | nil => simp [chunksGo, Nat.div_eq_of_lt (show le - 1 < le by omega)]
    | cons x t =>
      simp only [chunksGo, List.length_cons]
      by_cases hc : t.length + 1 ≤ le
      · rw [if_pos hc]
        have hdiv : (t.length + 1 + le - 1) / le = 1 :=
          Nat.div_eq_of_lt_le (by omega) (by omega)
        simp only [List.length_cons, List.length_singleton, List.length_nil, hdiv]
      · rw [if_neg hc]
        have hrec := ih ((x :: t).drop le)
          (by simp only [List.length_drop, List.length_cons]; simp only [List.length_cons] at h; omega)
        simp only [List.length_cons, List.length_drop] at hrec ⊢
        rw [hrec,
          show t.length + 1 + le - 1 = (t.length + 1 - le + le - 1) + le by omega,
          Nat.add_div_right _ (show 0 < le by omega)]

theorem chunks_length (le : Nat) (hle : 1 ≤ le) (xs : List Nat) :
    (chunks le xs).length = (xs.length + le - 1) / le :=
  chunksGo_length le hle xs.length xs le_rfl

theorem chunks_length_mul (le k : Nat) (hle : 1 ≤ le) (_hk : 1 ≤ k) (xs : List Nat)
    (h : xs.length = k * le) : (chunks le xs).length = k := by
  rw [chunks_length le hle, h,
    show k * le + le - 1 = le * k + (le - 1) by rw [Nat.mul_comm, Nat.add_sub_assoc hle],
    Nat.mul_add_div (by omega), Nat.div_eq_of_lt (by omega), Nat.add_zero]

theorem chunks_two (le : Nat) (hle : 1 ≤ le) (xs : List Nat) (h : le < xs.length) :
    ∃ c c2 cs, chunks le xs = c :: c2 :: cs := by
  have hl : 2 ≤ (chunks le xs).length := by
    rw [chunks_length le hle]
    exact (Nat.le_div_iff_mul_le (show 0 < le by omega)).mpr (by omega)
  match hm : chunks le xs with
  | [] => rw [hm] at hl; simp at hl
  | [c] => rw [hm] at hl; simp at hl
  | c :: c2 :: cs => exact ⟨c, c2, cs, rfl⟩

theorem chunksGo_ne_nil (le : Nat) (fuel : Nat) (x : Nat) (t : List Nat) :
    chunksGo le (fuel + 1) (x :: t) ≠ [] := by
  simp only [chunksGo, List.length_cons]
  by_cases hc : t.length + 1 ≤ le
  · rw [if_pos hc]; simp
  · rw [if_neg hc]; simp

theorem chunks_ne_nil (le : Nat) (x : Nat) (t : List Nat) :
    chunks le (x :: t) ≠ [] :=
  chunksGo_ne_nil le t.length x t

theorem chunksGo_mem_length (le : Nat) (hle : 1 ≤ le) :
    ∀ (fuel : Nat) (xs : List Nat), xs.length ≤ fuel →
      ∀ c ∈ chunksGo le fuel xs, 1 ≤ c.length ∧ c.length ≤ le := by
  intro fuel
  induction fuel with
  | zero =>
    intro xs h
    cases xs with
    | nil => simp [chunksGo]
    | cons x t => simp at h
  | succ n ih =>
    intro xs h
    cases xs with
    | nil => simp [chunksGo]
    | cons x t =>
      simp only [chunksGo, List.length_cons]
      by_cases hc : t.length + 1 ≤ le
      · rw [if_pos hc]
        intro c hmem
        rw [List.mem_singleton] at hmem
        subst hmem
        refine ⟨by simp, by simp only [List.length_cons]; omega⟩
      · rw [if_neg hc]
        intro c hmem
        rcases List.mem_cons.mp hmem with rfl | hmem2
        · refine ⟨?_, ?_⟩ <;> simp only [List.length_take, List.length_cons] <;> omega
        · exact ih _
            (by simp only [List.length_drop, List.length_cons]; simp only [List.length_cons] at h; omega)
            c hmem2

theorem chunks_mem_length (le : Nat) (hle : 1 ≤ le) (xs : List Nat) :
    ∀ c ∈ chunks le xs, 1 ≤ c.length ∧ c.length ≤ le :=
  chunksGo_mem_length le hle xs.length xs le_rfl

theorem chunksGo_dropLast_length (le : Nat) (hle : 1 ≤ le) :
    ∀ (fuel : Nat) (xs : List Nat), xs.length ≤ fuel →
      ∀ c ∈ (chunksGo le fuel xs).dropLast, c.length = le := by
  intro fuel
  induction fuel with
  | zero =>
    intro xs h
    cases xs with
    | nil => simp [chunksGo]
    | cons x t => simp at h
  | succ n ih =>
    intro xs h
    cases xs with
    | nil => simp [chunksGo]
    | cons x t =>
      simp only [chunksGo, List.length_cons]
      by_cases hc : t.length + 1 ≤ le
      · rw [if_pos hc]
        intro c hmem
        simp at hmem
      · rw [if_neg hc]
        simp only [List.length_cons] at h hc
        have hdne : (x :: t).drop le ≠ [] := by
          intro hn
          have := congrArg List.length hn
          simp only [List.length_drop, List.length_cons, List.length_nil] at this
          omega
        obtain ⟨y, t', hyt⟩ := List.exists_cons_of_ne_nil hdne
        have hn1 : n = (n - 1) + 1 := by omega
        have hrecne : chunksGo le n ((x :: t).drop le) ≠ [] := by
          rw [hyt, hn1]
          exact chunksGo_ne_nil le (n - 1) y t'
        obtain ⟨z, zs, hz⟩ := List.exists_cons_of_ne_nil hrecne
        rw [hz, List.dropLast_cons₂]
        intro c hmem
        rcases List.mem_cons.mp hmem with rfl | hmem2
        · simp only [List.length_take, List.length_cons]
          omega
        · refine ih ((x :: t).drop le)
            (by simp only [List.length_drop, List.length_cons]; omega) c ?_
          rw [hz]
          exact hmem2

theorem chunks_dropLast_length (le : Nat) (hle : 1 ≤ le) (xs : List Nat) :
    ∀ c ∈ (chunks le xs).dropLast, c.length = le :=
  chunksGo_dropLast_length le hle xs.length xs le_rfl

/-! ## Properties of fragmentation packets -/

theorem fuMids_length (pt sc ind typ : Nat) (m : Bool) :
    ∀ (seq : Nat) (cs : List (List Nat)),
      (fuMids pt sc ind typ m seq cs).length = cs.length
  | _, [] => rfl
  | _, [_] => rfl
  | seq, c :: c2 :: cs => by
    simp only [fuMids, List.length_cons]
    exact congrArg (· + 1) (fuMids_length pt sc ind typ m (seq + 1) (c2 :: cs))

theorem fuMids_ne_nil (pt sc ind typ : Nat) (m : Bool) (seq : Nat)
    (cs : List (List Nat)) (h : cs ≠ []) : fuMids pt sc ind typ m seq cs ≠ [] := by
  intro hn
  have := fuMids_length pt sc ind typ m seq cs
  rw [hn] at this
  cases cs with
  | nil => exact h rfl
  | cons c cs' => simp at this

theorem fuMids_seqs (pt sc ind typ : Nat) (m : Bool) :
    ∀ (seq : Nat) (cs : List (List Nat)),
      seqsFrom seq (fuMids pt sc ind typ m seq cs) = true
  | _, [] => rfl
  | seq, [c] => by simp [fuMids, seqsFrom]
  | seq, c :: c2 :: cs => by
    simp only [fuMids, seqsFrom, decide_eq_true_eq, Bool.and_eq_true]
    exact ⟨by simp, fuMids_seqs pt sc ind typ m (seq + 1) (c2 :: cs)⟩

theorem fuMids_ssrc (pt sc ind typ : Nat) (m : Bool) :
    ∀ (seq : Nat) (cs : List (List Nat)),
      ∀ p ∈ fuMids pt sc ind typ m seq cs, p.ssrc = sc ∧ p.payloadType = pt
  | _, [], p, hp => absurd hp (by simp [fuMids])
  | seq, [c], p, hp => by
    simp only [fuMids, List.mem_singleton] at hp
    subst hp
    exact ⟨rfl, rfl⟩
  | seq, c :: c2 :: cs, p, hp => by
    simp only [fuMids, List.mem_cons] at hp
    rcases hp with rfl | hp2
    · exact ⟨rfl, rfl⟩
    · exact fuMids_ssrc pt sc ind typ m (seq + 1) (c2 :: cs) p hp2

theorem fuMids_lastMarked (pt sc ind typ : Nat) :
    ∀ (seq : Nat) (cs : List (List Nat)), cs ≠ [] →
      lastMarked (fuMids pt sc ind typ true seq cs) = true
  | _, [], h => absurd rfl h
  | seq, [c], _ => rfl
  | seq, c :: c2 :: cs, _ => by
    have hrec := fuMids_lastMarked pt sc ind typ (seq + 1) (c2 :: cs) (by simp)
    have hne := fuMids_ne_nil pt sc ind typ true (seq + 1) (c2 :: cs) (by simp)
    obtain ⟨q, qs, hq⟩ := List.exists_cons_of_ne_nil hne
    simp only [fuMids, hq, lastMarked, Bool.not_false, Bool.true_and]
    rw [← hq, hrec]

theorem fuMids_unmarked (pt sc ind typ : Nat) :
    ∀ (seq : Nat) (cs : List (List Nat)),
      (fuMids pt sc ind typ false seq cs).all (fun p => !p.marker) = true
  | _, [] => rfl
  | seq, [c] => rfl
  | seq, c :: c2 :: cs => by
    simp only [fuMids, List.all_cons, Bool.not_false, Bool.true_and]
    exact fuMids_unmarked pt sc ind typ (seq + 1) (c2 :: cs)

theorem fuMids_payload_len (pt sc ind typ : Nat) (m : Bool) :
    ∀ (seq : Nat) (cs : List (List Nat)),
      (fuMids pt sc ind typ m seq cs).map (fun p => p.payload.length) =
        cs.map (fun c => 2 + c.length)
  | _, [] => rfl
  | seq, [c] => by simp [fuMids]; omega
  | seq, c :: c2 :: cs => by
    simp only [fuMids, List.map_cons, List.length_cons]
    refine congrArg₂ (· :: ·) (by omega) ?_
    exact fuMids_payload_len pt sc ind typ m (seq + 1) (c2 :: cs)

theorem fuMids_drop2 (pt sc ind typ : Nat) (m : Bool) :
    ∀ (seq : Nat) (cs : List (List Nat)),
      (fuMids pt sc ind typ m seq cs).map (fun p => p.payload.drop 2) = cs
  | _, [] => rfl
  | seq, [c] => by simp [fuMids]
  | seq, c :: c2 :: cs => by
    simp only [fuMids, List.map_cons, List.drop_succ_cons, List.drop_zero]
    exact congrArg (_ :: ·) (fuMids_drop2 pt sc ind typ m (seq + 1) (c2 :: cs))

theorem fuMids_headers (pt sc ind typ : Nat) (m : Bool) (htyp : typ < 32) :
    ∀ (seq : Nat) (cs : List (List Nat)),
      ∀ p ∈ fuMids pt sc ind typ m seq cs,
        2 ≤ p.payload.length ∧ p.payload.headD 0 = ind ∧
          p.payload.tail.headD 0 % 32 = typ
  | _, [], p, hp => absurd hp (by simp [fuMids])
  | seq, [c], p, hp => by
    simp only [fuMids, List.mem_singleton] at hp
    subst hp
    refine ⟨by simp, rfl, ?_⟩
    show (64 + typ) % 32 = typ
    omega
  | seq, c :: c2 :: cs, p, hp => by
    simp only [fuMids, List.mem_cons] at hp
    rcases hp with rfl | hp2
    · refine ⟨by simp, rfl, ?_⟩
      show typ % 32 = typ
      omega
    · exact fuMids_headers pt sc ind typ m htyp (seq + 1) (c2 :: cs) p hp2

theorem fuMids_startbits (pt sc ind typ : Nat) (m : Bool) (htyp : typ < 32) :
    ∀ (seq : Nat) (cs : List (List Nat)),
      (fuMids pt sc ind typ m seq cs).map (fun p => p.payload.tail.headD 0 / 128) =
        List.replicate cs.length 0
  | _, [] => rfl
  | seq, [c] => by
    simp only [fuMids, List.map_cons, List.map_nil, List.length_singleton,
      List.replicate_one]
    refine congrArg (· :: []) ?_
    show (64 + typ) / 128 = 0
    omega
  | seq, c :: c2 :: cs => by
    simp only [fuMids, List.map_cons, List.length_cons, List.replicate_succ]
    refine congrArg₂ (· :: ·) (show typ / 128 = 0 by omega) ?_
    exact fuMids_startbits pt sc ind typ m htyp (seq + 1) (c2 :: cs)

theorem fuMids_endbits (pt sc ind typ : Nat) (m : Bool) (htyp : typ < 32) :
    ∀ (seq : Nat) (cs : List (List Nat)), cs ≠ [] →
      (fuMids pt sc ind typ m seq cs).map (fun p => p.payload.tail.headD 0 / 64 % 2) =
        List.replicate (cs.length - 1) 0 ++ [1]
  | _, [], h => absurd rfl h
  | seq, [c], _ => by
    simp only [fuMids, List.map_cons, List.map_nil, List.length_singleton]
    refine congrArg (· :: []) ?_
    show (64 + typ) / 64 % 2 = 1
    omega
  | seq, c :: c2 :: cs, _ => by
    simp only [fuMids, List.map_cons, List.length_cons]
    rw [fuMids_endbits pt sc ind typ m htyp (seq + 1) (c2 :: cs) (by simp)]
    simp only [List.length_cons, Nat.add_sub_cancel, List.replicate_succ,
      List.cons_append]
    refine congrArg₂ (· :: ·) (show typ / 64 % 2 = 0 by omega) rfl

/-! ## Decoding lemmas -/

theorem decodeAll_append (xs ys : List RtpPacket) :
    ∀ (d : Decoder),
      decodeAll d (xs ++ ys) =
        ((decodeAll d xs).1 ++ (decodeAll (decodeAll d xs).2 ys).1,
         (decodeAll (decodeAll d xs).2 ys).2) := by
  induction xs with
  | nil => intro d; simp [decodeAll]
  | cons p ps ih =>
    intro d
    simp [decodeAll, ih, List.append_assoc]

theorem decode_single_unit (d : Decoder) (m : Bool) (pt s sc : Nat) (n : List Nat)
    (hv : validNalu n = true) :
    Decoder.decode d ⟨m, pt, s, sc, n⟩ = (.ok [n], ⟨none, 0⟩) := by
  simp only [validNalu, Bool.and_eq_true, decide_eq_true_eq] at hv
  obtain ⟨⟨⟨hne, hlt⟩, h24⟩, h28⟩ := hv
  obtain ⟨h, t, rfl⟩ := List.exists_cons_of_ne_nil hne
  simp only [List.headD_cons] at h24 h28
  simp only [Decoder.decode, if_neg h24, if_neg h28]

theorem fuMids_decode (pt sc ind typ : Nat) (m : Bool) (hind : ind % 32 = 28)
    (htyp : typ < 32) :
    ∀ (seq : Nat) (buf : List Nat) (cs : List (List Nat)), cs ≠ [] →
      decodeAll ⟨some buf, seq % 65536⟩ (fuMids pt sc ind typ m seq cs) =
        ([buf ++ cs.flatten], ⟨none, 0⟩)
  | _, _, [], h => absurd rfl h
  | seq, buf, [c], _ => by
    have h24 : ¬(ind % 32 = 24) := by omega
    have h128 : ¬((64 + typ) / 128 = 1) := by omega
    have h64 : (64 + typ) / 64 % 2 = 1 := by omega
    simp only [fuMids, decodeAll, Decoder.decode, if_neg h24, if_pos hind,
      if_neg h128, h64]
    simp
  | seq, buf, c :: c2 :: cs, _ => by
    have h24 : ¬(ind % 32 = 24) := by omega
    have h128 : ¬(typ / 128 = 1) := by omega
    have h64 : ¬(typ / 64 % 2 = 1) := by omega
    have hrec := fuMids_decode pt sc ind typ m hind htyp (seq + 1) (buf ++ c)
      (c2 :: cs) (by simp)
    simp only [fuMids, decodeAll, Decoder.decode, if_neg h24, if_pos hind,
      if_neg h128, if_neg h64]
    simp only [ite_not, if_pos rfl]
    simp [hrec, List.append_assoc]

theorem parseStap_stapBody :
    ∀ (batch : List (List Nat)), (∀ n ∈ batch, n.length < 65536) →
      parseStap ((batch.map fun n => n.length / 256 % 256 :: n.length % 256 :: n).flatten) =
        some batch := by
  intro batch
  induction batch with
  | nil => intro _; simp [parseStap]
  | cons n rest ih =>
    intro hb
    have hn : n.length < 65536 := hb n (by simp)
    have hlen : n.length / 256 % 256 * 256 + n.length % 256 = n.length := by omega
    simp only [List.map_cons, List.flatten_cons, List.cons_append]
    rw [parseStap]
    simp only [hlen]
    rw [if_neg (by simp), List.take_left, List.drop_left,
      ih (fun x hx => hb x (by simp [hx]))]

theorem decode_stap (d : Decoder) (m : Bool) (pt s sc : Nat) (batch : List (List Nat))
    (hb : ∀ n ∈ batch, n.length < 65536) :
    Decoder.decode d ⟨m, pt, s, sc, stapPayload batch⟩ = (.ok batch, ⟨none, 0⟩) := by
  simp only [Decoder.decode, stapPayload]
  rw [if_pos (by norm_num), parseStap_stapBody batch hb]

theorem fuPackets_decode (e : Encoder) (seq : Nat) (nalu : List Nat) (m : Bool)
    (d : Decoder) (hP : 3 ≤ e.payloadMaxSize) (hlen : e.payloadMaxSize < nalu.length)
    (hv : validNalu nalu = true) :
    decodeAll d (fuPackets e seq nalu m) = ([nalu], ⟨none, 0⟩) := by
  simp only [validNalu, Bool.and_eq_true, decide_eq_true_eq] at hv
  obtain ⟨⟨⟨hne, hlt⟩, h24⟩, h28⟩ := hv
  obtain ⟨h, t, rfl⟩ := List.exists_cons_of_ne_nil hne
  simp only [List.headD_cons] at hlt h24 h28
  have hle : 1 ≤ e.payloadMaxSize - 2 := by omega
  have htl : e.payloadMaxSize - 2 < t.length := by
    simp only [List.length_cons] at hlen
    omega
  obtain ⟨c, c2, cs, hch⟩ := chunks_two _ hle t htl
  simp only [fuPackets, List.headD_cons, List.tail_cons, hch]
  have hind : (h / 32 % 4 * 32 + 28) % 32 = 28 := by omega
  have h24' : ¬((h / 32 % 4 * 32 + 28) % 32 = 24) := by omega
  have hstart : (128 + h % 32) / 128 = 1 := by omega
  have hendb : ¬((128 + h % 32) / 64 % 2 = 1) := by omega
  have hhdr : (h / 32 % 4 * 32 + 28) / 32 % 8 * 32 + (128 + h % 32) % 32 = h := by
    omega
  simp only [decodeAll, Decoder.decode, if_neg h24', if_pos hind, if_pos hstart,
    if_neg hendb, hhdr, Nat.mod_add_mod]
  rw [fuMids_decode e.payloadType e.ssrc _ _ m hind (by omega) (seq + 1) (h :: c)
    (c2 :: cs) (by simp)]
  have hflat : c ++ (c2 :: cs).flatten = t := by
    have := chunks_flatten (e.payloadMaxSize - 2) hle t
    rw [hch] at this
    simpa using this
  simp only [List.flatten_cons] at hflat
  simp [hflat]

/-! ## Properties of batching -/

/-- Size of the aggregation packet a whole batch would produce. -/
def aggSize (b : List (List Nat)) : Nat := 1 + (b.map fun x => 2 + x.length).sum

theorem lenAggregated_eq (b : List (List Nat)) (n : List Nat) :
    lenAggregated b n = aggSize (b ++ [n]) := by
  simp [lenAggregated, aggSize, List.map_append, List.sum_append]
  omega

theorem makeBatchesGo_flatten (P : Nat) :
    ∀ (ns acc : List (List Nat)), (makeBatchesGo P acc ns).flatten = acc ++ ns := by
  intro ns
  induction ns with
  | nil => intro acc; simp [makeBatchesGo]
  | cons n rest ih =>
    intro acc
    simp only [makeBatchesGo]
    by_cases hc : lenAggregated acc n ≤ P
    · rw [if_pos hc, ih]
      simp
    · rw [if_neg hc]
      simp [ih]

theorem makeBatches_flatten (P : Nat) (ns : List (List Nat)) :
    (makeBatches P ns).flatten = ns := by
  cases ns with
  | nil => rfl
  | cons n rest => simp [makeBatches, makeBatchesGo_flatten]

theorem makeBatchesGo_wf (P : Nat) :
    ∀ (ns acc : List (List Nat)), acc ≠ [] → (acc.length = 1 ∨ aggSize acc ≤ P) →
      ∀ b ∈ makeBatchesGo P acc ns, b ≠ [] ∧ (b.length = 1 ∨ aggSize b ≤ P) := by
  intro ns
  induction ns with
  | nil =>
    intro acc h1 h2 b hb
    simp only [makeBatchesGo, List.mem_singleton] at hb
    subst hb
    exact ⟨h1, h2⟩
  | cons n rest ih =>
    intro acc h1 h2 b hb
    simp only [makeBatchesGo] at hb
    by_cases hc : lenAggregated acc n ≤ P
    · rw [if_pos hc] at hb
      refine ih (acc ++ [n]) (by simp) (Or.inr ?_) b hb
      rw [← lenAggregated_eq]
      exact hc
    · rw [if_neg hc] at hb
      rcases List.mem_cons.mp hb with rfl | hb2
      · exact ⟨h1, h2⟩
      · exact ih [n] (by simp) (Or.inl rfl) b hb2

theorem makeBatchesGo_mem (P : Nat) :
    ∀ (ns acc : List (List Nat)), ∀ b ∈ makeBatchesGo P acc ns,
      ∀ x ∈ b, x ∈ acc ∨ x ∈ ns := by
  intro ns
  induction ns with
  | nil =>
    intro acc b hb x hx
    simp only [makeBatchesGo, List.mem_singleton] at hb
    subst hb
    exact Or.inl hx
  | cons n rest ih =>
    intro acc b hb x hx
    simp only [makeBatchesGo] at hb
    by_cases hc : lenAggregated acc n ≤ P
    · rw [if_pos hc] at hb
      rcases ih (acc ++ [n]) b hb x hx with hacc | hrest
      · rcases List.mem_append.mp hacc with h | h
        · exact Or.inl h
        · exact Or.inr (by simp only [List.mem_singleton] at h; simp [h])
      · exact Or.inr (by simp [hrest])
    · rw [if_neg hc] at hb
      rcases List.mem_cons.mp hb with rfl | hb2
      · exact Or.inl hx
      · rcases ih [n] b hb2 x hx with h | h
        · exact Or.inr (by simp only [List.mem_singleton] at h; simp [h])
        · exact Or.inr (by simp [h])

theorem aggSize_mem_bound (b : List (List Nat)) (n : List Nat) (hn : n ∈ b)
    (P : Nat) (hb : aggSize b ≤ P) : n.length + 3 ≤ P := by
  have hmem : 2 + n.length ∈ b.map fun x => 2 + x.length :=
    List.mem_map_of_mem _ hn
  have := List.single_le_sum (fun x _ => Nat.zero_le x) _ hmem
  simp only [aggSize] at hb
  omega

/-! ## Per-batch and whole-call decoding -/

theorem writeBatch_decode (e : Encoder) (seq : Nat) (b : List (List Nat)) (m : Bool)
    (d : Decoder) (hP : 3 ≤ e.payloadMaxSize) (hP2 : e.payloadMaxSize ≤ 65535)
    (hne : b ≠ []) (hv : ∀ n ∈ b, validNalu n = true)
    (hsize : b.length = 1 ∨ aggSize b ≤ e.payloadMaxSize) :
    decodeAll d (writeBatch e seq b m).1 = (b, ⟨none, 0⟩) := by
  match b with
  | [n] =>
    simp only [writeBatch]
    by_cases hfit : n.length ≤ e.payloadMaxSize
    · rw [if_pos hfit]
      simp only [decodeAll, decode_single_unit d m e.payloadType (seq % 65536) e.ssrc n
        (hv n (by simp))]
      simp [decodeAll]
    · rw [if_neg hfit]
      exact fuPackets_decode e seq n m d hP (by omega) (hv n (by simp))
  | n1 :: n2 :: rest =>
    have hagg : aggSize (n1 :: n2 :: rest) ≤ e.payloadMaxSize := by
      rcases hsize with h | h
      · simp at h
      · exact h
    have hbound : ∀ n ∈ n1 :: n2 :: rest, n.length < 65536 := by
      intro n hn
      have := aggSize_mem_bound _ n hn _ hagg
      omega
    simp only [writeBatch, decodeAll,
      decode_stap d m e.payloadType (seq % 65536) e.ssrc _ hbound]
    simp [decodeAll]

theorem encodeBatches_decode (e : Encoder) (hP : 3 ≤ e.payloadMaxSize)
    (hP2 : e.payloadMaxSize ≤ 65535) :
    ∀ (bs : List (List (List Nat))) (seq : Nat) (d : Decoder), bs ≠ [] →
      (∀ b ∈ bs, b ≠ [] ∧ (∀ n ∈ b, validNalu n = true) ∧
        (b.length = 1 ∨ aggSize b ≤ e.payloadMaxSize)) →
      decodeAll d (encodeBatches e seq bs).1 = (bs.flatten, ⟨none, 0⟩)
  | [], _, _, h, _ => absurd rfl h
  | [b], seq, d, _, hwf => by
    obtain ⟨h1, h2, h3⟩ := hwf b (by simp)
    simp only [encodeBatches, List.flatten_cons, List.flatten_nil, List.append_nil]
    exact writeBatch_decode e seq b true d hP hP2 h1 h2 h3
  | b :: b2 :: rest, seq, d, _, hwf => by
    obtain ⟨h1, h2, h3⟩ := hwf b (by simp)
    have hwb := writeBatch_decode e seq b false d hP hP2 h1 h2 h3
    have hrec := encodeBatches_decode e hP hP2 (b2 :: rest) (writeBatch e seq b false).2
      ⟨none, 0⟩ (by simp) (fun x hx => hwf x (by simp [hx]))
    simp only [encodeBatches, decodeAll_append, hwb, hrec, List.flatten_cons]

/-- Claim C1 support: a successful encode decodes back to the access unit. -/
theorem encode_decode (e : Encoder) (seq : Nat) (nalus : List (List Nat))
    (hP : 3 ≤ e.payloadMaxSize) (hP2 : e.payloadMaxSize ≤ 65535)
    (hne : nalus ≠ []) (hv : nalus.all validNalu = true) :
    ∃ ps s', e.encode seq nalus = .ok (ps, s') ∧
      ∀ d, decodeAll d ps = (nalus, ⟨none, 0⟩) := by
  refine ⟨(encodeBatches e seq (makeBatches e.payloadMaxSize nalus)).1,
    (encodeBatches e seq (makeBatches e.payloadMaxSize nalus)).2, ?_, ?_⟩
  · simp [Encoder.encode, hne, hv]
  · intro d
    have hvmem : ∀ n ∈ nalus, validNalu n = true := by
      intro n hn
      exact List.all_eq_true.mp hv n hn
    have hwf : ∀ b ∈ makeBatches e.payloadMaxSize nalus, b ≠ [] ∧
        (∀ n ∈ b, validNalu n = true) ∧
        (b.length = 1 ∨ aggSize b ≤ e.payloadMaxSize) := by
      intro b hb
      cases nalus with
      | nil => exact absurd rfl hne
      | cons n rest =>
        simp only [makeBatches] at hb
        obtain ⟨hb1, hb3⟩ := makeBatchesGo_wf e.payloadMaxSize rest [n] (by simp)
          (Or.inl rfl) b hb
        refine ⟨hb1, ?_, hb3⟩
        intro x hx
        rcases makeBatchesGo_mem e.payloadMaxSize rest [n] b hb x hx with h | h
        · simp only [List.mem_singleton] at h
          exact hvmem x (by simp [h])
        · exact hvmem x (by simp [h])
    have hbne : makeBatches e.payloadMaxSize nalus ≠ [] := by
      cases nalus with
      | nil => exact absurd rfl hne
      | cons n rest =>
        simp only [makeBatches]
        have := makeBatchesGo_flatten e.payloadMaxSize rest [n]
        intro hnil
        rw [hnil] at this
        simp at this
    rw [encodeBatches_decode e hP hP2 _ seq d hbne hwf, makeBatches_flatten]

/-! ## Sequence-number, marker and SSRC bookkeeping -/

theorem seqsFrom_congr (ps : List RtpPacket) :
    ∀ (s1 s2 : Nat), s1 % 65536 = s2 % 65536 →
      seqsFrom s1 ps = seqsFrom s2 ps := by
  induction ps with
  | nil => intro s1 s2 _; rfl
  | cons p ps ih =>
    intro s1 s2 h
    simp only [seqsFrom, h]
    rw [ih (s1 + 1) (s2 + 1) (by omega)]

theorem seqsFrom_append (xs ys : List RtpPacket) :
    ∀ (s : Nat),
      seqsFrom s (xs ++ ys) = (seqsFrom s xs && seqsFrom (s + xs.length) ys) := by
  induction xs with
  | nil => intro s; simp [seqsFrom]
  | cons p ps ih =>
    intro s
    simp only [List.cons_append, seqsFrom, List.append_eq, ih (s + 1),
      List.length_cons, Bool.and_assoc]
    rw [show s + 1 + ps.length = s + (ps.length + 1) by omega]

theorem seqsFrom_head (s : Nat) (p : RtpPacket) (ps : List RtpPacket)
    (h : seqsFrom s (p :: ps) = true) : p.sequenceNumber = s % 65536 := by
  simp only [seqsFrom, Bool.and_eq_true, decide_eq_true_eq] at h
  exact h.1

theorem lastMarked_cons_of_ne (p : RtpPacket) (ps : List RtpPacket) (h : ps ≠ []) :
    lastMarked (p :: ps) = (!p.marker && lastMarked ps) := by
  cases ps with
  | nil => exact absurd rfl h
  | cons q qs => rfl

theorem lastMarked_ne_nil (ps : List RtpPacket) (h : lastMarked ps = true) :
    ps ≠ [] := by
  intro hn
  rw [hn] at h
  simp [lastMarked] at h

theorem lastMarked_append (xs ys : List RtpPacket)
    (hx : xs.all (fun p => !p.marker) = true) (hy : lastMarked ys = true) :
    lastMarked (xs ++ ys) = true := by
  induction xs with
  | nil => simpa using hy
  | cons x xs ih =>
    simp only [List.all_cons, Bool.and_eq_true] at hx
    have hne : xs ++ ys ≠ [] := by
      intro hn
      rcases List.append_eq_nil.mp hn with ⟨_, h2⟩
      exact lastMarked_ne_nil ys hy h2
    rw [List.cons_append, lastMarked_cons_of_ne _ _ hne, hx.1, ih hx.2]
    rfl

theorem fuPackets_seqs (e : Encoder) (seq : Nat) (n : List Nat) (m : Bool) :
    seqsFrom seq (fuPackets e seq n m) = true := by
  simp only [fuPackets]
  match chunks (e.payloadMaxSize - 2) n.tail with
  | [] => rfl
  | [c] => simp [seqsFrom]
  | c :: c2 :: cs =>
    simp only [seqsFrom, decide_eq_true_eq, Bool.and_eq_true]
    exact ⟨by simp, fuMids_seqs _ _ _ _ m (seq + 1) (c2 :: cs)⟩

theorem fuPackets_ssrc (e : Encoder) (seq : Nat) (n : List Nat) (m : Bool) :
    ∀ p ∈ fuPackets e seq n m, p.ssrc = e.ssrc ∧ p.payloadType = e.payloadType := by
  simp only [fuPackets]
  match chunks (e.payloadMaxSize - 2) n.tail with
  | [] => simp
  | [c] => simp
  | c :: c2 :: cs =>
    intro p hp
    rcases List.mem_cons.mp hp with rfl | hp2
    · exact ⟨rfl, rfl⟩
    · exact fuMids_ssrc _ _ _ _ m (seq + 1) (c2 :: cs) p hp2

theorem fuPackets_lastMarked (e : Encoder) (seq : Nat) (n : List Nat)
    (hch : chunks (e.payloadMaxSize - 2) n.tail ≠ []) :
    lastMarked (fuPackets e seq n true) = true := by
  simp only [fuPackets]
  match hm : chunks (e.payloadMaxSize - 2) n.tail with
  | [] => exact absurd hm hch
  | [c] => rfl
  | c :: c2 :: cs =>
    have hne := fuMids_ne_nil e.payloadType e.ssrc
      (n.headD 0 / 32 % 4 * 32 + 28) (n.headD 0 % 32) true (seq + 1) (c2 :: cs)
      (by simp)
    rw [lastMarked_cons_of_ne _ _ hne]
    simp only [Bool.not_false, Bool.true_and]
    exact fuMids_lastMarked _ _ _ _ (seq + 1) (c2 :: cs) (by simp)

theorem fuPackets_unmarked (e : Encoder) (seq : Nat) (n : List Nat) :
    (fuPackets e seq n false).all (fun p => !p.marker) = true := by
  simp only [fuPackets]
  match chunks (e.payloadMaxSize - 2) n.tail with
  | [] => rfl
  | [c] => rfl
  | c :: c2 :: cs =>
    simp only [List.all_cons, Bool.not_false, Bool.true_and]
    exact fuMids_unmarked _ _ _ _ (seq + 1) (c2 :: cs)

theorem writeBatch_snd (e : Encoder) (seq : Nat) (b : List (List Nat)) (m : Bool) :
    (writeBatch e seq b m).2 = (seq + (writeBatch e seq b m).1.length) % 65536 := by
  match b with
  | [n] =>
    simp only [writeBatch]
    by_cases hfit : n.length ≤ e.payloadMaxSize
    · rw [if_pos hfit]
      simp
    · rw [if_neg hfit]
  | [] => rfl
  | n1 :: n2 :: rest => rfl

theorem writeBatch_seqs (e : Encoder) (seq : Nat) (b : List (List Nat)) (m : Bool) :
    seqsFrom seq (writeBatch e seq b m).1 = true := by
  match b with
  | [n] =>
    simp only [writeBatch]
    by_cases hfit : n.length ≤ e.payloadMaxSize
    · rw [if_pos hfit]
      simp [seqsFrom]
    · rw [if_neg hfit]
      exact fuPackets_seqs e seq n m
  | [] => simp [writeBatch, seqsFrom]
  | n1 :: n2 :: rest => simp [writeBatch, seqsFrom]

theorem writeBatch_ssrc (e : Encoder) (seq : Nat) (b : List (List Nat)) (m : Bool) :
    ∀ p ∈ (writeBatch e seq b m).1, p.ssrc = e.ssrc := by
  match b with
  | [n] =>
    simp only [writeBatch]
    by_cases hfit : n.length ≤ e.payloadMaxSize
    · rw [if_pos hfit]
      simp
    · rw [if_neg hfit]
      intro p hp
      exact (fuPackets_ssrc e seq n m p hp).1
  | [] => simp [writeBatch]
  | n1 :: n2 :: rest => simp [writeBatch]

theorem writeBatch_lastMarked (e : Encoder) (seq : Nat) (b : List (List Nat))
    (hP : 3 ≤ e.payloadMaxSize) (hne : b ≠ [])
    (hv : ∀ n ∈ b, validNalu n = true) :
    lastMarked (writeBatch e seq b true).1 = true := by
  match b with
  | [n] =>
    simp only [writeBatch]
    by_cases hfit : n.length ≤ e.payloadMaxSize
    · rw [if_pos hfit]
      rfl
    · rw [if_neg hfit]
      have hvn := hv n (by simp)
      simp only [validNalu, Bool.and_eq_true, decide_eq_true_eq] at hvn
      obtain ⟨⟨⟨hnn, _⟩, _⟩, _⟩ := hvn
      obtain ⟨h, t, rfl⟩ := List.exists_cons_of_ne_nil hnn
      refine fuPackets_lastMarked e seq (h :: t) ?_
      have ht : t ≠ [] := by
        intro hn
        subst hn
        simp only [List.length_cons, List.length_nil] at hfit
        omega
      obtain ⟨y, t', rfl⟩ := List.exists_cons_of_ne_nil ht
      exact chunks_ne_nil _ y t'
  | [] => exact absurd rfl hne
  | n1 :: n2 :: rest => rfl

theorem writeBatch_unmarked (e : Encoder) (seq : Nat) (b : List (List Nat)) :
    (writeBatch e seq b false).1.all (fun p => !p.marker) = true := by
  match b with
  | [n] =>
    simp only [writeBatch]
    by_cases hfit : n.length ≤ e.payloadMaxSize
    · rw [if_pos hfit]
      rfl
    · rw [if_neg hfit]
      exact fuPackets_unmarked e seq n
  | [] => rfl
  | n1 :: n2 :: rest => rfl

theorem encodeBatches_props (e : Encoder) (hP : 3 ≤ e.payloadMaxSize) :
    ∀ (bs : List (List (List Nat))) (seq : Nat), bs ≠ [] →
      (∀ b ∈ bs, b ≠ [] ∧ ∀ n ∈ b, validNalu n = true) →
      seqsFrom seq (encodeBatches e seq bs).1 = true ∧
      (encodeBatches e seq bs).2 =
        (seq + (encodeBatches e seq bs).1.length) % 65536 ∧
      lastMarked (encodeBatches e seq bs).1 = true ∧
      ∀ p ∈ (encodeBatches e seq bs).1, p.ssrc = e.ssrc
  | [], _, h, _ => absurd rfl h
  | [b], seq, _, hwf => by
    obtain ⟨h1, h2⟩ := hwf b (by simp)
    exact ⟨writeBatch_seqs e seq b true, writeBatch_snd e seq b true,
      writeBatch_lastMarked e seq b hP h1 h2, writeBatch_ssrc e seq b true⟩
  | b :: b2 :: rest, seq, _, hwf => by
    obtain ⟨h1, h2⟩ := hwf b (by simp)
    obtain ⟨r1, r2, r3, r4⟩ := encodeBatches_props e hP (b2 :: rest)
      (writeBatch e seq b false).2 (by simp) (fun x hx => hwf x (by simp [hx]))
    simp only [encodeBatches]
    set L1 := (writeBatch e seq b false).1.length with hL1
    refine ⟨?_, ?_, ?_, ?_⟩
    · rw [seqsFrom_append]
      rw [Bool.and_eq_true]
      refine ⟨writeBatch_seqs e seq b false, ?_⟩
      rw [← seqsFrom_congr _ ((writeBatch e seq b false).2) (seq + L1)
        (by rw [writeBatch_snd e seq b false]; omega)]
      exact r1
    · simp only [List.length_append]
      rw [r2, writeBatch_snd e seq b false]
      omega
    · exact lastMarked_append _ _ (writeBatch_unmarked e seq b) r3
    · intro p hp
      rcases List.mem_append.mp hp with h | h
      · exact writeBatch_ssrc e seq b false p h
      · exact r4 p h

theorem encode_ok_elim (e : Encoder) (seq : Nat) (nalus : List (List Nat))
    (ps : List RtpPacket) (s' : Nat) (h : e.encode seq nalus = .ok (ps, s')) :
    nalus ≠ [] ∧ nalus.all validNalu = true ∧
      (ps, s') = encodeBatches e seq (makeBatches e.payloadMaxSize nalus) := by
  by_cases hc : nalus ≠ [] ∧ nalus.all validNalu = true
  · refine ⟨hc.1, hc.2, ?_⟩
    simp only [Encoder.encode, if_pos hc, Except.ok.injEq] at h
    exact h.symm
  · simp only [Encoder.encode, if_neg hc] at h
    exact absurd h (by simp)

theorem makeBatches_wf (P : Nat) (nalus : List (List Nat)) (hne : nalus ≠ [])
    (hv : nalus.all validNalu = true) :
    makeBatches P nalus ≠ [] ∧
      ∀ b ∈ makeBatches P nalus, b ≠ [] ∧ (∀ n ∈ b, validNalu n = true) ∧
        (b.length = 1 ∨ aggSize b ≤ P) := by
  have hvmem : ∀ n ∈ nalus, validNalu n = true := fun n hn =>
    List.all_eq_true.mp hv n hn
  cases nalus with
  | nil => exact absurd rfl hne
  | cons n rest =>
    constructor
    · simp only [makeBatches]
      have := makeBatchesGo_flatten P rest [n]
      intro hnil
      rw [hnil] at this
      simp at this
    · intro b hb
      simp only [makeBatches] at hb
      obtain ⟨hb1, hb3⟩ := makeBatchesGo_wf P rest [n] (by simp) (Or.inl rfl) b hb
      refine ⟨hb1, ?_, hb3⟩
      intro x hx
      rcases makeBatchesGo_mem P rest [n] b hb x hx with h | h
      · simp only [List.mem_singleton] at h
        exact hvmem x (by simp [h])
      · exact hvmem x (by simp [h])

theorem encode_props (e : Encoder) (seq : Nat) (nalus : List (List Nat))
    (ps : List RtpPacket) (s' : Nat) (hP : 3 ≤ e.payloadMaxSize)
    (h : e.encode seq nalus = .ok (ps, s')) :
    seqsFrom seq ps = true ∧ s' = (seq + ps.length) % 65536 ∧
      lastMarked ps = true ∧ ∀ p ∈ ps, p.ssrc = e.ssrc := by
  obtain ⟨hne, hv, heq⟩ := encode_ok_elim e seq nalus ps s' h
  obtain ⟨hbne, hwf⟩ := makeBatches_wf e.payloadMaxSize nalus hne hv
  obtain ⟨r1, r2, r3, r4⟩ := encodeBatches_props e hP
    (makeBatches e.payloadMaxSize nalus) seq hbne
    (fun b hb => ⟨(hwf b hb).1, (hwf b hb).2.1⟩)
  have hps : ps = (encodeBatches e seq (makeBatches e.payloadMaxSize nalus)).1 :=
    congrArg Prod.fst heq
  have hs' : s' = (encodeBatches e seq (makeBatches e.payloadMaxSize nalus)).2 :=
    congrArg Prod.snd heq
  subst hps
  subst hs'
  exact ⟨r1, r2, r3, r4⟩

/-! ## Shape of the fragmentation packet run -/

theorem dropLast_map_eq {α β : Type} (f : α → β) :
    ∀ (l : List α), (l.map f).dropLast = l.dropLast.map f := by
  intro l
  induction l with
  | nil => rfl
  | cons x xs ih =>
    cases xs with
    | nil => rfl
    | cons y ys =>
      simp only [List.map_cons, List.dropLast_cons₂, ← ih, List.map_cons]

theorem fuPackets_length (e : Encoder) (seq : Nat) (n : List Nat) (m : Bool) :
    (fuPackets e seq n m).length = (chunks (e.payloadMaxSize - 2) n.tail).length := by
  simp only [fuPackets]
  match chunks (e.payloadMaxSize - 2) n.tail with
  | [] => rfl
  | [c] => rfl
  | c :: c2 :: cs =>
    simp only [List.length_cons, fuMids_length]

theorem fuPackets_payload_len (e : Encoder) (seq : Nat) (n : List Nat) (m : Bool) :
    (fuPackets e seq n m).map (fun p => p.payload.length) =
      (chunks (e.payloadMaxSize - 2) n.tail).map (fun c => 2 + c.length) := by
  simp only [fuPackets]
  match chunks (e.payloadMaxSize - 2) n.tail with
  | [] => rfl
  | [c] => simp; omega
  | c :: c2 :: cs =>
    simp only [List.map_cons, fuMids_payload_len, List.length_cons]
    refine congrArg₂ (· :: ·) (by omega) rfl

theorem fuPackets_drop2 (e : Encoder) (seq : Nat) (n : List Nat) (m : Bool) :
    (fuPackets e seq n m).map (fun p => p.payload.drop 2) =
      chunks (e.payloadMaxSize - 2) n.tail := by
  simp only [fuPackets]
  match chunks (e.payloadMaxSize - 2) n.tail with
  | [] => rfl
  | [c] => simp
  | c :: c2 :: cs =>
    simp only [List.map_cons, fuMids_drop2, List.drop_succ_cons, List.drop_zero]

theorem fuPackets_frag_shape (e : Encoder) (seq : Nat) (n : List Nat) (m : Bool) :
    ∀ p ∈ fuPackets e seq n m,
      2 ≤ p.payload.length ∧
      p.payload.headD 0 = n.headD 0 / 32 % 4 * 32 + 28 ∧
      p.payload.tail.headD 0 % 32 = n.headD 0 % 32 := by
  simp only [fuPackets]
  match chunks (e.payloadMaxSize - 2) n.tail with
  | [] => simp
  | [c] =>
    intro p hp
    simp only [List.mem_singleton] at hp
    subst hp
    refine ⟨by simp, rfl, ?_⟩
    show (128 + 64 + n.headD 0 % 32) % 32 = n.headD 0 % 32
    omega
  | c :: c2 :: cs =>
    intro p hp
    rcases List.mem_cons.mp hp with rfl | hp2
    · refine ⟨by simp, rfl, ?_⟩
      show (128 + n.headD 0 % 32) % 32 = n.headD 0 % 32
      omega
    · exact fuMids_headers e.payloadType e.ssrc _ _ m
        (Nat.mod_lt _ (by omega)) (seq + 1) (c2 :: cs) p hp2

theorem fuPackets_startbits (e : Encoder) (seq : Nat) (n : List Nat) (m : Bool)
    (c c2 : List Nat) (cs : List (List Nat))
    (hch : chunks (e.payloadMaxSize - 2) n.tail = c :: c2 :: cs) :
    (fuPackets e seq n m).map (fun p => p.payload.tail.headD 0 / 128) =
      1 :: List.replicate ((fuPackets e seq n m).length - 1) 0 := by
  simp only [fuPackets, hch, List.map_cons, List.length_cons, fuMids_length]
  refine congrArg₂ (· :: ·) (show (128 + n.headD 0 % 32) / 128 = 1 by omega) ?_
  rw [fuMids_startbits e.payloadType e.ssrc _ _ m (Nat.mod_lt _ (by omega))
    (seq + 1) (c2 :: cs)]
  simp

theorem fuPackets_endbits (e : Encoder) (seq : Nat) (n : List Nat) (m : Bool)
    (c c2 : List Nat) (cs : List (List Nat))
    (hch : chunks (e.payloadMaxSize - 2) n.tail = c :: c2 :: cs) :
    (fuPackets e seq n m).map (fun p => p.payload.tail.headD 0 / 64 % 2) =
      List.replicate ((fuPackets e seq n m).length - 1) 0 ++ [1] := by
  simp only [fuPackets, hch, List.map_cons, List.length_cons, fuMids_length]
  rw [fuMids_endbits e.payloadType e.ssrc _ _ m (Nat.mod_lt _ (by omega))
    (seq + 1) (c2 :: cs) (by simp)]
  simp only [List.length_cons, Nat.add_sub_cancel, List.replicate_succ,
    List.cons_append]
  refine congrArg₂ (· :: ·) (show (128 + n.headD 0 % 32) / 64 % 2 = 0 by omega) rfl

theorem encode_single_unit_eq (e : Encoder) (seq : Nat) (n : List Nat)
    (hv : validNalu n = true) (hbig : e.payloadMaxSize < n.length) :
    e.encode seq [n] =
      .ok (fuPackets e seq n true,
        (seq + (fuPackets e seq n true).length) % 65536) := by
  have hc : ([n] : List (List Nat)) ≠ [] ∧ ([n] : List (List Nat)).all validNalu = true := by
    simp [hv]
  simp only [Encoder.encode, if_pos hc, makeBatches, makeBatchesGo, encodeBatches,
    writeBatch, if_neg (show ¬(n.length ≤ e.payloadMaxSize) by omega)]

/-! ## Claim theorems -/

/-- Claim C1: Round-trip.  For every access unit (any number of sub-units of
any sizes — in particular sizes 1, PayloadMaxSize-1, PayloadMaxSize,
PayloadMaxSize+1 and larger multi-fragment sizes — each unit well formed for
the codec), feeding every packet emitted by Encoder.Encode, in emission
order, into Decoder.Decode reconstructs exactly the original sub-unit
sequence.  The decoder starts from (indeed, from any) state. -/
theorem c1_round_trip (e : Encoder) (seq : Nat) (nalus : List (List Nat))
    (hP : 3 ≤ e.payloadMaxSize) (hP2 : e.payloadMaxSize ≤ 65535)
    (hne : nalus ≠ []) (hv : nalus.all validNalu = true) :
    ∃ ps s', e.encode seq nalus = .ok (ps, s') ∧
      (decodeAll ⟨none, 0⟩ ps).1 = nalus := by
  obtain ⟨ps, s', h1, h2⟩ := encode_decode e seq nalus hP hP2 hne hv
  exact ⟨ps, s', h1, by rw [h2 ⟨none, 0⟩]⟩

/-- Witness for C1 at a concrete input: PayloadMaxSize 6, three units of
sizes 2, 1 and 8 (the last one fragmented into two packets). -/
theorem c1_round_trip_witness :
    3 ≤ (⟨96, 7, 6⟩ : Encoder).payloadMaxSize ∧
    (∃ ps s',
      (⟨96, 7, 6⟩ : Encoder).encode 10 [[5, 1], [7], [9, 1, 1, 1, 1, 1, 1, 1]] =
        .ok (ps, s') ∧
      (decodeAll ⟨none, 0⟩ ps).1 = [[5, 1], [7], [9, 1, 1, 1, 1, 1, 1, 1]]) :=
  ⟨by decide,
   c1_round_trip ⟨96, 7, 6⟩ 10 [[5, 1], [7], [9, 1, 1, 1, 1, 1, 1, 1]]
     (by decide) (by decide) (by decide) (by decide)⟩

/-- Claim C2: Sequence monotonicity and marker placement.  Over any sequence
of Encode calls on one initialized encoder, the emitted packets' sequence
numbers form one contiguous increasing run modulo 2^16 starting from the
initial sequence number with no gaps or repeats, the counter advances by
exactly the number of packets emitted per call (failed calls emit nothing and
do not advance it), each successful call's packets carry Marker = true on
exactly the last packet, and every packet carries the encoder's fixed SSRC. -/
theorem c2_sequence_monotonicity (e : Encoder) (seq : Nat)
    (aus : List (List (List Nat))) (hP : 3 ≤ e.payloadMaxSize)
    (hs : seq < 65536) :
    seqsFrom seq (multiEncode e seq aus).1.flatten = true ∧
    (multiEncode e seq aus).2 =
      (seq + (multiEncode e seq aus).1.flatten.length) % 65536 ∧
    (∀ ps ∈ (multiEncode e seq aus).1, ps ≠ [] → lastMarked ps = true) ∧
    (∀ p ∈ (multiEncode e seq aus).1.flatten, p.ssrc = e.ssrc) := by
  induction aus generalizing seq hs with
  | nil =>
    refine ⟨rfl, by simpa using (Nat.mod_eq_of_lt hs).symm, by simp [multiEncode], by simp [multiEncode]⟩
  | cons au aus ih =>
    simp only [multiEncode]
    cases henc : e.encode seq au with
    | error err =>
      obtain ⟨q1, q2, q3, q4⟩ := ih seq hs
      simp only [List.flatten_cons, List.nil_append]
      refine ⟨q1, q2, ?_, q4⟩
      intro ps hps
      rcases List.mem_cons.mp hps with rfl | hps2
      · intro hn; exact absurd rfl hn
      · exact q3 ps hps2
    | ok r =>
      obtain ⟨ps, s'⟩ := r
      obtain ⟨p1, p2, p3, p4⟩ := encode_props e seq au ps s' hP henc
      have hs' : s' < 65536 := by
        rw [p2]; exact Nat.mod_lt _ (by omega)
      obtain ⟨q1, q2, q3, q4⟩ := ih s' hs'
      simp only [List.flatten_cons]
      refine ⟨?_, ?_, ?_, ?_⟩
      · rw [seqsFrom_append, Bool.and_eq_true]
        refine ⟨p1, ?_⟩
        rw [← seqsFrom_congr _ s' (seq + ps.length) (by rw [p2]; omega)]
        exact q1
      · simp only [List.length_append]
        rw [q2, p2]
        omega
      · intro l hl
        rcases List.mem_cons.mp hl with rfl | hl2
        · intro _; exact p3
        · exact q3 l hl2
      · intro p hp
        rcases List.mem_append.mp hp with h | h
        · exact p4 p h
        · exact q4 p h

/-- Witness for C2 at a concrete input: PayloadMaxSize 6, two calls (the
second one's unit gets fragmented), initial sequence number 65535 so the run
wraps around 2^16. -/
theorem c2_sequence_monotonicity_witness :
    3 ≤ (⟨96, 7, 6⟩ : Encoder).payloadMaxSize ∧ 65535 < 65536 ∧
    (seqsFrom 65535
        (multiEncode (⟨96, 7, 6⟩ : Encoder) 65535
          [[[5, 1], [7]], [[9, 1, 1, 1, 1, 1, 1, 1]]]).1.flatten = true ∧
      (multiEncode (⟨96, 7, 6⟩ : Encoder) 65535
          [[[5, 1], [7]], [[9, 1, 1, 1, 1, 1, 1, 1]]]).2 =
        (65535 + (multiEncode (⟨96, 7, 6⟩ : Encoder) 65535
          [[[5, 1], [7]], [[9, 1, 1, 1, 1, 1, 1, 1]]]).1.flatten.length) % 65536 ∧
      (∀ ps ∈ (multiEncode (⟨96, 7, 6⟩ : Encoder) 65535
          [[[5, 1], [7]], [[9, 1, 1, 1, 1, 1, 1, 1]]]).1,
        ps ≠ [] → lastMarked ps = true) ∧
      (∀ p ∈ (multiEncode (⟨96, 7, 6⟩ : Encoder) 65535
          [[[5, 1], [7]], [[9, 1, 1, 1, 1, 1, 1, 1]]]).1.flatten,
        p.ssrc = (⟨96, 7, 6⟩ : Encoder).ssrc)) :=
  ⟨by decide, by decide,
   c2_sequence_monotonicity ⟨96, 7, 6⟩ 65535
     [[[5, 1], [7]], [[9, 1, 1, 1, 1, 1, 1, 1]]] (by decide) (by decide)⟩

/-- Concrete encoder for the C3 counterexample: PayloadMaxSize 10. -/
def e3 : Encoder := ⟨96, 7, 10⟩

/-- Concrete unit for the C3 counterexample: 20 bytes, exactly
2 × PayloadMaxSize. -/
def nalu3 : List Nat := List.replicate 20 1

/-- Counterexample to claim C3 as stated: a unit of size exactly
2 × PayloadMaxSize is encoded into 3 fragmentation packets, not 2 (each
fragment carries a 2-byte header, so a slice holds PayloadMaxSize - 2 bytes:
the 19 payload bytes after the stripped unit header need 3 slices of 8). -/
theorem c3_counterexample :
    nalu3.length = 2 * e3.payloadMaxSize ∧
    (∀ p ∈ encodedPackets e3 0 [nalu3], p.payload.headD 0 % 32 = 28) ∧
    (encodedPackets e3 0 [nalu3]).length = 3 := by decide

/-- Claim C3 (amended): for every unit whose size is exactly
1 + k×(PayloadMaxSize−2) with k ≥ 2 — one stripped unit-header byte plus
exactly k fragment slices — Encoder.Encode produces exactly k fragmentation
packets for that unit, the last one carrying the marker, and none of them
empty. -/
theorem c3_fragmentation_boundary (e : Encoder) (seq : Nat) (n : List Nat)
    (k : Nat) (hP : 4 ≤ e.payloadMaxSize) (hk : 2 ≤ k)
    (hlen : n.length = 1 + k * (e.payloadMaxSize - 2))
    (hv : validNalu n = true) :
    ∃ ps s', e.encode seq [n] = .ok (ps, s') ∧ ps.length = k ∧
      (∀ p ∈ ps, p.payload.headD 0 % 32 = 28 ∧ p.payload ≠ []) ∧
      lastMarked ps = true := by
  have hne : n ≠ [] := by
    simp only [validNalu, Bool.and_eq_true, decide_eq_true_eq] at hv
    exact hv.1.1.1
  obtain ⟨h, t, rfl⟩ := List.exists_cons_of_ne_nil hne
  have hbig : e.payloadMaxSize < (h :: t).length := by
    have : 2 * (e.payloadMaxSize - 2) ≤ k * (e.payloadMaxSize - 2) :=
      Nat.mul_le_mul_right _ hk
    simp only [List.length_cons] at hlen ⊢
    omega
  rw [encode_single_unit_eq e seq (h :: t) hv hbig]
  refine ⟨_, _, rfl, ?_, ?_, ?_⟩
  · rw [fuPackets_length]
    refine chunks_length_mul _ k (by omega) (by omega) _ ?_
    simp only [List.tail_cons]
    simp only [List.length_cons] at hlen
    omega
  · intro p hp
    obtain ⟨h2, h3, _⟩ := fuPackets_frag_shape e seq (h :: t) true p hp
    refine ⟨by rw [h3]; omega, ?_⟩
    intro hnil
    rw [hnil] at h2
    simp at h2
  · refine fuPackets_lastMarked e seq (h :: t) ?_
    have ht : t ≠ [] := by
      intro hn
      subst hn
      simp only [List.length_cons, List.length_nil] at hbig
      omega
    obtain ⟨y, t', rfl⟩ := List.exists_cons_of_ne_nil ht
    exact chunks_ne_nil _ y t'

/-- Witness for the amended C3: PayloadMaxSize 10, unit of 17 = 1 + 2×8
bytes, giving exactly 2 fragmentation packets. -/
theorem c3_fragmentation_boundary_witness :
    (List.replicate 17 1 : List Nat).length =
      1 + 2 * ((⟨96, 7, 10⟩ : Encoder).payloadMaxSize - 2) ∧
    (∃ ps s', (⟨96, 7, 10⟩ : Encoder).encode 5 [List.replicate 17 1] =
        .ok (ps, s') ∧ ps.length = 2 ∧
      (∀ p ∈ ps, p.payload.headD 0 % 32 = 28 ∧ p.payload ≠ []) ∧
      lastMarked ps = true) :=
  ⟨by decide,
   c3_fragmentation_boundary ⟨96, 7, 10⟩ 5 (List.replicate 17 1) 2
     (by decide) (by decide) (by decide) (by decide)⟩

/-- Concrete encoder for the C4 counterexample: PayloadMaxSize 10. -/
def e4 : Encoder := ⟨96, 7, 10⟩

/-- Concrete unit for the C4 counterexample: 4 bytes, smaller than
PayloadMaxSize / 2 = 5. -/
def nalu4 : List Nat := [9, 1, 1, 1]

/-- Counterexample to claim C4 as stated: two units of 4 bytes each — both
smaller than PayloadMaxSize/2 — are NOT packed into a single aggregated
packet: the aggregate needs 5 + 4 + 4 = 13 > 10 bytes of payload because of
the 1-byte aggregation header and the 2-byte length field per unit, so the
encoder emits two plain packets instead. -/
theorem c4_counterexample :
    nalu4.length < e4.payloadMaxSize / 2 ∧
    (encodedPackets e4 0 [nalu4, nalu4]).length = 2 ∧
    (∀ p ∈ encodedPackets e4 0 [nalu4, nalu4],
      p.payload.headD 0 % 32 ≠ 24) := by decide

/-- Claim C4 (amended): two units (each individually fitting in
PayloadMaxSize) are packed into a single aggregated packet — header byte
plus a 2-byte length field before each unit — exactly when the aggregate
including that overhead, 5 + |n1| + |n2| bytes, fits within PayloadMaxSize;
otherwise each unit is placed alone in its own packet. -/
theorem c4_aggregation_packing (e : Encoder) (seq : Nat) (n1 n2 : List Nat)
    (hv1 : validNalu n1 = true) (hv2 : validNalu n2 = true)
    (h1 : n1.length ≤ e.payloadMaxSize) (h2 : n2.length ≤ e.payloadMaxSize) :
    (5 + n1.length + n2.length ≤ e.payloadMaxSize →
      e.encode seq [n1, n2] =
        .ok ([⟨true, e.payloadType, seq % 65536, e.ssrc, stapPayload [n1, n2]⟩],
          (seq + 1) % 65536)) ∧
    (e.payloadMaxSize < 5 + n1.length + n2.length →
      e.encode seq [n1, n2] =
        .ok ([⟨false, e.payloadType, seq % 65536, e.ssrc, n1⟩,
              ⟨true, e.payloadType, (seq + 1) % 65536, e.ssrc, n2⟩],
          (seq + 2) % 65536)) := by
  have hc : ([n1, n2] : List (List Nat)) ≠ [] ∧
      ([n1, n2] : List (List Nat)).all validNalu = true := by
    simp [hv1, hv2]
  have hagg : lenAggregated [n1] n2 = 5 + n1.length + n2.length := by
    simp [lenAggregated]
    omega
  constructor
  · intro hfits
    simp only [Encoder.encode, if_pos hc, makeBatches, makeBatchesGo, hagg,
      if_pos hfits, encodeBatches, writeBatch, List.singleton_append]
  · intro hover
    simp only [Encoder.encode, if_pos hc, makeBatches, makeBatchesGo, hagg,
      if_neg (show ¬(5 + n1.length + n2.length ≤ e.payloadMaxSize) by omega),
      encodeBatches, writeBatch, if_pos h1, if_pos h2, List.singleton_append]
    rw [Nat.mod_add_mod, Nat.mod_mod_of_dvd _ (dvd_refl 65536)]

/-- Witness for the amended C4: with PayloadMaxSize 10, units of sizes 2 and
2 (5+2+2 = 9 ≤ 10) are aggregated into one packet; the counterexample input
(4 and 4, 5+4+4 = 13 > 10) yields two separate packets. -/
theorem c4_aggregation_packing_witness :
    validNalu [9, 1] = true ∧
    ((5 + 2 + 2 ≤ (10 : Nat) →
      (⟨96, 7, 10⟩ : Encoder).encode 3 [[9, 1], [9, 1]] =
        .ok ([⟨true, 96, 3 % 65536, 7, stapPayload [[9, 1], [9, 1]]⟩],
          (3 + 1) % 65536)) ∧
     ((10 : Nat) < 5 + 2 + 2 →
      (⟨96, 7, 10⟩ : Encoder).encode 3 [[9, 1], [9, 1]] =
        .ok ([⟨false, 96, 3 % 65536, 7, [9, 1]⟩,
              ⟨true, 96, (3 + 1) % 65536, 7, [9, 1]⟩],
          (3 + 2) % 65536))) :=
  ⟨by decide,
   c4_aggregation_packing ⟨96, 7, 10⟩ 3 [9, 1] [9, 1]
     (by decide) (by decide) (by decide) (by decide)⟩

/-- Claim C5: Fragment sizing.  When a unit alone exceeds the size limit,
Encoder.Encode splits it into a run of fragmentation packets, each carrying a
fragment header, every non-final packet's payload filling exactly
PayloadMaxSize, and the final fragment never empty (its payload holds the
2-byte fragment header plus at least one and at most PayloadMaxSize - 2
remainder bytes).  Since the bound holds for every unit size, it holds in
particular for an access unit whose total size is an exact multiple of
PayloadMaxSize: the final fragment is still correctly sized and no
zero-length trailing packet is emitted. -/
theorem c5_fragment_sizing (e : Encoder) (seq : Nat) (n : List Nat)
    (hP : 3 ≤ e.payloadMaxSize) (hbig : e.payloadMaxSize < n.length)
    (hv : validNalu n = true) :
    ∃ ps s', e.encode seq [n] = .ok (ps, s') ∧ ps ≠ [] ∧
      (∀ p ∈ ps, p.payload.headD 0 % 32 = 28) ∧
      (∀ p ∈ ps.dropLast, p.payload.length = e.payloadMaxSize) ∧
      (∀ p ∈ ps, 3 ≤ p.payload.length ∧
        p.payload.length ≤ e.payloadMaxSize) := by
  have hne : n ≠ [] := by
    simp only [validNalu, Bool.and_eq_true, decide_eq_true_eq] at hv
    exact hv.1.1.1
  obtain ⟨h, t, rfl⟩ := List.exists_cons_of_ne_nil hne
  have hle : 1 ≤ e.payloadMaxSize - 2 := by omega
  have ht : t ≠ [] := by
    intro hn
    subst hn
    simp only [List.length_cons, List.length_nil] at hbig
    omega
  rw [encode_single_unit_eq e seq (h :: t) hv hbig]
  have hmap := fuPackets_payload_len e seq (h :: t) true
  simp only [List.tail_cons] at hmap
  refine ⟨_, _, rfl, ?_, ?_, ?_, ?_⟩
  · intro hnil
    have := fuPackets_length e seq (h :: t) true
    rw [hnil] at this
    obtain ⟨y, t', rfl⟩ := List.exists_cons_of_ne_nil ht
    exact chunks_ne_nil _ y t' (by
      have hlen := this.symm
      simpa [List.length_eq_zero] using hlen)
  · intro p hp
    exact (fuPackets_frag_shape e seq (h :: t) true p hp).2.1 ▸ (by omega)
  · intro p hp
    have hmem : p.payload.length ∈
        ((fuPackets e seq (h :: t) true).dropLast.map fun q => q.payload.length) :=
      List.mem_map_of_mem _ hp
    rw [← dropLast_map_eq, hmap, dropLast_map_eq] at hmem
    obtain ⟨c, hc, hceq⟩ := List.mem_map.mp hmem
    have := chunks_dropLast_length _ hle t c hc
    omega
  · intro p hp
    have hmem : p.payload.length ∈
        ((fuPackets e seq (h :: t) true).map fun q => q.payload.length) :=
      List.mem_map_of_mem _ hp
    rw [hmap] at hmem
    obtain ⟨c, hc, hceq⟩ := List.mem_map.mp hmem
    have := chunks_mem_length _ hle t c hc
    omega

/-- Witness for C5: PayloadMaxSize 4, unit of 8 = 2 × PayloadMaxSize bytes
(the exact-multiple edge case): fragments of payload sizes 4, 4, 3. -/
theorem c5_fragment_sizing_witness :
    3 ≤ (⟨96, 7, 4⟩ : Encoder).payloadMaxSize ∧
    (⟨96, 7, 4⟩ : Encoder).payloadMaxSize < (List.replicate 8 1 : List Nat).length ∧
    (∃ ps s', (⟨96, 7, 4⟩ : Encoder).encode 2 [List.replicate 8 1] =
        .ok (ps, s') ∧ ps ≠ [] ∧
      (∀ p ∈ ps, p.payload.headD 0 % 32 = 28) ∧
      (∀ p ∈ ps.dropLast, p.payload.length = (⟨96, 7, 4⟩ : Encoder).payloadMaxSize) ∧
      (∀ p ∈ ps, 3 ≤ p.payload.length ∧
        p.payload.length ≤ (⟨96, 7, 4⟩ : Encoder).payloadMaxSize)) :=
  ⟨by decide, by decide,
   c5_fragment_sizing ⟨96, 7, 4⟩ 2 (List.replicate 8 1)
     (by decide) (by decide) (by decide)⟩

/-- Claim C10: implicit fragmentation wire structure.  For every fragmented
unit the encoder strips the unit's first (header) byte and prefixes every
fragment's payload with a two-byte fragmentation header: an indicator byte
preserving the unit header's priority bits combined with the fragmentation
packet type (nri×32 + 28), then a byte whose start bit (value 128) marks
exactly the first fragment, whose end bit (value 64) marks exactly the last
fragment, and whose low five bits carry the unit's original type; and
concatenating the bytes after those two-byte headers across all fragments,
in order, yields exactly the original unit minus its first byte. -/
theorem c10_fragmentation_wire (e : Encoder) (seq : Nat) (n : List Nat)
    (m : Bool) (hP : 3 ≤ e.payloadMaxSize) (hbig : e.payloadMaxSize < n.length)
    (hv : validNalu n = true) :
    2 ≤ (fuPackets e seq n m).length ∧
    (∀ p ∈ fuPackets e seq n m,
      2 ≤ p.payload.length ∧
      p.payload.headD 0 = n.headD 0 / 32 % 4 * 32 + 28 ∧
      p.payload.tail.headD 0 % 32 = n.headD 0 % 32) ∧
    (fuPackets e seq n m).map (fun p => p.payload.tail.headD 0 / 128) =
      1 :: List.replicate ((fuPackets e seq n m).length - 1) 0 ∧
    (fuPackets e seq n m).map (fun p => p.payload.tail.headD 0 / 64 % 2) =
      List.replicate ((fuPackets e seq n m).length - 1) 0 ++ [1] ∧
    ((fuPackets e seq n m).map (fun p => p.payload.drop 2)).flatten = n.tail := by
  have hne : n ≠ [] := by
    simp only [validNalu, Bool.and_eq_true, decide_eq_true_eq] at hv
    exact hv.1.1.1
  obtain ⟨h, t, rfl⟩ := List.exists_cons_of_ne_nil hne
  have hle : 1 ≤ e.payloadMaxSize - 2 := by omega
  have htl : e.payloadMaxSize - 2 < t.length := by
    simp only [List.length_cons] at hbig
    omega
  obtain ⟨c, c2, cs, hch⟩ := chunks_two _ hle t htl
  have hch' : chunks (e.payloadMaxSize - 2) (h :: t).tail = c :: c2 :: cs := by
    simpa using hch
  refine ⟨?_, fuPackets_frag_shape e seq (h :: t) m, ?_, ?_, ?_⟩
  · rw [fuPackets_length, hch']
    simp
  · exact fuPackets_startbits e seq (h :: t) m c c2 cs hch'
  · exact fuPackets_endbits e seq (h :: t) m c c2 cs hch'
  · rw [fuPackets_drop2]
    exact chunks_flatten _ hle _

/-- Witness for C10: PayloadMaxSize 5, unit of 9 bytes split into 3
fragments of slice sizes 3, 3, 2. -/
theorem c10_fragmentation_wire_witness :
    3 ≤ (⟨96, 7, 5⟩ : Encoder).payloadMaxSize ∧
    validNalu [0x65, 1, 2, 3, 4, 5, 6, 7, 8] = true ∧
    (2 ≤ (fuPackets ⟨96, 7, 5⟩ 4 [0x65, 1, 2, 3, 4, 5, 6, 7, 8] true).length ∧
     (∀ p ∈ fuPackets ⟨96, 7, 5⟩ 4 [0x65, 1, 2, 3, 4, 5, 6, 7, 8] true,
       2 ≤ p.payload.length ∧
       p.payload.headD 0 =
         ([0x65, 1, 2, 3, 4, 5, 6, 7, 8] : List Nat).headD 0 / 32 % 4 * 32 + 28 ∧
       p.payload.tail.headD 0 % 32 =
         ([0x65, 1, 2, 3, 4, 5, 6, 7, 8] : List Nat).headD 0 % 32) ∧
     (fuPackets ⟨96, 7, 5⟩ 4 [0x65, 1, 2, 3, 4, 5, 6, 7, 8] true).map
         (fun p => p.payload.tail.headD 0 / 128) =
       1 :: List.replicate
         ((fuPackets ⟨96, 7, 5⟩ 4 [0x65, 1, 2, 3, 4, 5, 6, 7, 8] true).length - 1) 0 ∧
     (fuPackets ⟨96, 7, 5⟩ 4 [0x65, 1, 2, 3, 4, 5, 6, 7, 8] true).map
         (fun p => p.payload.tail.headD 0 / 64 % 2) =
       List.replicate
         ((fuPackets ⟨96, 7, 5⟩ 4 [0x65, 1, 2, 3, 4, 5, 6, 7, 8] true).length - 1) 0
         ++ [1] ∧
     ((fuPackets ⟨96, 7, 5⟩ 4 [0x65, 1, 2, 3, 4, 5, 6, 7, 8] true).map
         (fun p => p.payload.drop 2)).flatten =
       ([0x65, 1, 2, 3, 4, 5, 6, 7, 8] : List Nat).tail) :=
  ⟨by decide, by decide,
   c10_fragmentation_wire ⟨96, 7, 5⟩ 4 [0x65, 1, 2, 3, 4, 5, 6, 7, 8] true
     (by decide) (by decide) (by decide)⟩

/-- Claim C6: Decoder desync recovery.  (1) Mid-fragment (a fragment-start
buffered), a fragment packet whose sequence number is not contiguous fails
with the discontinuity error and discards the partial buffer; (2) a
continuation/end fragment with no fragment-start on record fails with
NonStartingPacketAndNoPrevious and produces no output; (3) an incomplete
fragment run (a fresh fragment-start) signals MorePacketsNeeded — a non-fatal
control signal — without producing output, buffering the reconstructed unit
header and slice; (4) from any decoder state, a new fragment-start followed by
a contiguous fragment-end produces a completed unit again. -/
theorem c6_decoder_desync :
    (∀ (buf body : List Nat) (nseq ind fuh : Nat) (pkt : RtpPacket),
      pkt.payload = ind :: fuh :: body → ind % 32 = 28 → fuh / 128 = 0 →
      pkt.sequenceNumber ≠ nseq →
      Decoder.decode ⟨some buf, nseq⟩ pkt =
        (.error .discontinuity, ⟨none, 0⟩)) ∧
    (∀ (body : List Nat) (nseq ind fuh : Nat) (pkt : RtpPacket),
      pkt.payload = ind :: fuh :: body → ind % 32 = 28 → fuh / 128 = 0 →
      Decoder.decode ⟨none, nseq⟩ pkt =
        (.error .nonStartingPacketAndNoPrevious, ⟨none, nseq⟩)) ∧
    (∀ (d : Decoder) (body : List Nat) (ind fuh : Nat) (pkt : RtpPacket),
      pkt.payload = ind :: fuh :: body → ind % 32 = 28 → fuh / 128 = 1 →
      fuh / 64 % 2 = 0 →
      Decoder.decode d pkt =
        (.error .morePacketsNeeded,
         ⟨some ((ind / 32 % 8 * 32 + fuh % 32) :: body),
          (pkt.sequenceNumber + 1) % 65536⟩)) ∧
    (∀ (d : Decoder) (body1 body2 : List Nat) (ind typ s pt sc : Nat)
      (m1 m2 : Bool), ind % 32 = 28 → typ < 32 →
      (decodeAll d
        [⟨m1, pt, s, sc, ind :: (128 + typ) :: body1⟩,
         ⟨m2, pt, (s + 1) % 65536, sc, ind :: (64 + typ) :: body2⟩]).1 =
        [(ind / 32 % 8 * 32 + typ) :: (body1 ++ body2)]) := by
  refine ⟨?_, ?_, ?_, ?_⟩
  · intro buf body nseq ind fuh pkt hpl hind hfs hne
    have h24 : ¬(ind % 32 = 24) := by omega
    have h128 : ¬(fuh / 128 = 1) := by omega
    simp only [Decoder.decode, hpl, if_neg h24, if_pos hind, if_neg h128]
    simp [hne]
  · intro body nseq ind fuh pkt hpl hind hfs
    have h24 : ¬(ind % 32 = 24) := by omega
    have h128 : ¬(fuh / 128 = 1) := by omega
    simp only [Decoder.decode, hpl, if_neg h24, if_pos hind, if_neg h128]
  · intro d body ind fuh pkt hpl hind hfs hfe
    have h24 : ¬(ind % 32 = 24) := by omega
    have h64 : ¬(fuh / 64 % 2 = 1) := by omega
    simp only [Decoder.decode, hpl, if_neg h24, if_pos hind, if_pos hfs,
      if_neg h64]
  · intro d body1 body2 ind typ s pt sc m1 m2 hind htyp
    have h24 : ¬(ind % 32 = 24) := by omega
    have hs1 : (128 + typ) / 128 = 1 := by omega
    have hs2 : ¬((128 + typ) / 64 % 2 = 1) := by omega
    have he1 : ¬((64 + typ) / 128 = 1) := by omega
    have he2 : (64 + typ) / 64 % 2 = 1 := by omega
    have hhdr : ind / 32 % 8 * 32 + (128 + typ) % 32 = ind / 32 % 8 * 32 + typ := by
      omega
    simp only [decodeAll, Decoder.decode, if_neg h24, if_pos hind, if_pos hs1,
      if_neg hs2, if_neg he1, he2, hhdr]
    simp

/-- Witness for C6 at concrete inputs: indicator byte 0x1c (type 28), unit
type 5, concrete bodies and sequence numbers for all four parts. -/
theorem c6_decoder_desync_witness :
    (Decoder.decode ⟨some [5, 9], 100⟩ ⟨false, 96, 102, 7, [0x1c, 5, 8]⟩ =
      (.error .discontinuity, ⟨none, 0⟩)) ∧
    (Decoder.decode ⟨none, 100⟩ ⟨false, 96, 100, 7, [0x1c, 5, 8]⟩ =
      (.error .nonStartingPacketAndNoPrevious, ⟨none, 100⟩)) ∧
    (Decoder.decode ⟨some [5, 9], 100⟩ ⟨false, 96, 50, 7, [0x1c, 0x85, 8]⟩ =
      (.error .morePacketsNeeded, ⟨some ((0x1c / 32 % 8 * 32 + 0x85 % 32) :: [8]),
        (50 + 1) % 65536⟩)) ∧
    ((decodeAll ⟨some [5, 9], 100⟩
        [⟨false, 96, 50, 7, 0x1c :: (128 + 5) :: [8]⟩,
         ⟨true, 96, (50 + 1) % 65536, 7, 0x1c :: (64 + 5) :: [9, 9]⟩]).1 =
      [(0x1c / 32 % 8 * 32 + 5) :: ([8] ++ [9, 9])]) :=
  ⟨c6_decoder_desync.1 [5, 9] [8] 100 0x1c 5 ⟨false, 96, 102, 7, [0x1c, 5, 8]⟩
     rfl (by decide) (by decide) (by decide),
   c6_decoder_desync.2.1 [8] 100 0x1c 5 ⟨false, 96, 100, 7, [0x1c, 5, 8]⟩
     rfl (by decide) (by decide),
   c6_decoder_desync.2.2.1 ⟨some [5, 9], 100⟩ [8] 0x1c 0x85
     ⟨false, 96, 50, 7, [0x1c, 0x85, 8]⟩ rfl (by decide) (by decide) (by decide),
   c6_decoder_desync.2.2.2 ⟨some [5, 9], 100⟩ [8] [9, 9] 0x1c 5 50 96 7
     false true (by decide) (by decide)⟩

/-- Claim C7: Publisher displacement.  When Announce happens while a previous
publisher/hub exists, the existing hub is closed (recorded in closedHubs with
its closed flag set) and its publisher session forcibly disconnected,
unconditionally — last announcer wins; every reader registered on the old hub
is disconnected; then a fresh hub instance (empty reader set, not closed) is
created and initialized and the announcing session becomes the publisher; the
response status is OK — displacement is not an error. -/
theorem c7_publisher_displacement (st : HandlerState) (hub : Hub) (sid : Nat)
    (h : st.stream = some hub) :
    (onAnnounce st sid).2 = RtspStatus.ok ∧
    (onAnnounce st sid).1.stream = some ⟨[], false⟩ ∧
    (onAnnounce st sid).1.publisher = some sid ∧
    { hub with closed := true } ∈ (onAnnounce st sid).1.closedHubs ∧
    (∀ r ∈ hub.readers, r ∈ (onAnnounce st sid).1.disconnected) ∧
    (∀ p, st.publisher = some p → p ∈ (onAnnounce st sid).1.disconnected) := by
  refine ⟨by simp [onAnnounce, h], by simp [onAnnounce, h],
    by simp [onAnnounce, h], by simp [onAnnounce, h], ?_, ?_⟩
  · intro r hr
    simp [onAnnounce, h, hr]
  · intro p hp
    simp [onAnnounce, h, hp]

/-- Witness for C7: a state holding a hub with readers 4 and 5 and publisher
session 2, displaced by an Announce from session 9. -/
theorem c7_publisher_displacement_witness :
    (⟨some ⟨[4, 5], false⟩, some 2, [], []⟩ : HandlerState).stream =
      some ⟨[4, 5], false⟩ ∧
    ((onAnnounce ⟨some ⟨[4, 5], false⟩, some 2, [], []⟩ 9).2 = RtspStatus.ok ∧
     (onAnnounce ⟨some ⟨[4, 5], false⟩, some 2, [], []⟩ 9).1.stream =
       some ⟨[], false⟩ ∧
     (onAnnounce ⟨some ⟨[4, 5], false⟩, some 2, [], []⟩ 9).1.publisher = some 9 ∧
     { (⟨[4, 5], false⟩ : Hub) with closed := true } ∈
       (onAnnounce ⟨some ⟨[4, 5], false⟩, some 2, [], []⟩ 9).1.closedHubs ∧
     (∀ r ∈ (⟨[4, 5], false⟩ : Hub).readers,
       r ∈ (onAnnounce ⟨some ⟨[4, 5], false⟩, some 2, [], []⟩ 9).1.disconnected) ∧
     (∀ p, (⟨some ⟨[4, 5], false⟩, some 2, [], []⟩ : HandlerState).publisher = some p →
       p ∈ (onAnnounce ⟨some ⟨[4, 5], false⟩, some 2, [], []⟩ 9).1.disconnected)) :=
  ⟨rfl, c7_publisher_displacement ⟨some ⟨[4, 5], false⟩, some 2, [], []⟩
    ⟨[4, 5], false⟩ 9 rfl⟩

/-- Claim C8: Randomized defaults.  Init sets SSRC and the initial sequence
number to the configured values when present and to the injected random draws
when unset (so after Init both are always set); with configured values the
first packet of the first Encode call carries exactly the configured initial
sequence number and SSRC. -/
theorem c8_randomized_defaults (cfg : EncoderConfig) (r1 r2 : Nat) :
    ((cfg.doInit r1 r2).1.ssrc = cfg.ssrc.getD r1) ∧
    ((cfg.doInit r1 r2).2 = (cfg.initialSequenceNumber.getD r2) % 65536) ∧
    (∀ v, cfg.ssrc = some v → (cfg.doInit r1 r2).1.ssrc = v) ∧
    (∀ s, cfg.initialSequenceNumber = some s → s < 65536 →
      (cfg.doInit r1 r2).2 = s) ∧
    (∀ (nalus : List (List Nat)) (ps ps' : List RtpPacket) (s' : Nat)
      (p : RtpPacket),
      3 ≤ (cfg.doInit r1 r2).1.payloadMaxSize →
      (cfg.doInit r1 r2).1.encode ((cfg.doInit r1 r2).2) nalus = .ok (ps, s') →
      ps = p :: ps' →
      p.sequenceNumber = (cfg.doInit r1 r2).2 ∧
        p.ssrc = (cfg.doInit r1 r2).1.ssrc) := by
  refine ⟨rfl, rfl, ?_, ?_, ?_⟩
  · intro v hv
    simp [EncoderConfig.doInit, hv]
  · intro s hs hlt
    simp [EncoderConfig.doInit, hs, Nat.mod_eq_of_lt hlt]
  · intro nalus ps ps' s' p hP henc hps
    obtain ⟨p1, _, _, p4⟩ := encode_props _ _ _ _ _ hP henc
    subst hps
    refine ⟨?_, p4 p (by simp)⟩
    have hh := seqsFrom_head _ _ _ p1
    rw [hh]
    show (cfg.initialSequenceNumber.getD r2) % 65536 % 65536 =
      (cfg.initialSequenceNumber.getD r2) % 65536
    exact Nat.mod_mod_of_dvd _ (dvd_refl 65536)

/-- Witness for C8: configured SSRC 7 and initial sequence number 9 are
preserved by Init and carried by the first packet of the first Encode call. -/
theorem c8_randomized_defaults_witness :
    ((⟨96, some 7, some 9, 5⟩ : EncoderConfig).doInit 1 2).1.ssrc = 7 ∧
    ((⟨96, some 7, some 9, 5⟩ : EncoderConfig).doInit 1 2).2 = 9 ∧
    (⟨true, 96, 9, 7, [5, 1]⟩ : RtpPacket).sequenceNumber =
      ((⟨96, some 7, some 9, 5⟩ : EncoderConfig).doInit 1 2).2 ∧
    (⟨true, 96, 9, 7, [5, 1]⟩ : RtpPacket).ssrc =
      ((⟨96, some 7, some 9, 5⟩ : EncoderConfig).doInit 1 2).1.ssrc := by
  have h := c8_randomized_defaults ⟨96, some 7, some 9, 5⟩ 1 2
  have h5 := h.2.2.2.2 [[5, 1]] [⟨true, 96, 9, 7, [5, 1]⟩] []
    10 ⟨true, 96, 9, 7, [5, 1]⟩ (by decide) (by rfl) rfl
  exact ⟨h.2.2.1 7 rfl, h.2.2.2.1 9 rfl (by decide), h5.1, h5.2⟩

/-- Concrete handler state for C9: a stream with readers 4 and 5 is present
and session 1 is the publisher. -/
def st9 : HandlerState := ⟨some ⟨[4, 5], false⟩, some 1, [], []⟩

/-- Claim C9 describes the intended writer-lock discipline; the code violates
it: serverHandler.OnSessionClose in src/examples/server-auth/main.go takes
only mutex.RLock (the shared reader side) yet mutates the shared
publisher/hub state (it closes the stream and sets it to nil) when the
publisher's session closes, while the identical handler in
src/unnamed/part_000 takes mutex.Lock (the exclusive writer side) for the
same mutation. -/
theorem c9_lock_discipline_bug :
    (serverAuthOnSessionClose st9 1).1 = LockMode.reader ∧
    st9.stream ≠ none ∧
    (serverAuthOnSessionClose st9 1).2.stream = none ∧
    (serverAuthOnSessionClose st9 1).2 ≠ st9 ∧
    (plainOnSessionClose st9 1).1 = LockMode.writer ∧
    (plainOnSessionClose st9 1).2 = (serverAuthOnSessionClose st9 1).2 := by
  decide
